import Mathlib

/-!
Verification of the Safe-Harbour report-submission core
(`src/server/src/controllers/reportController.ts`).

Texts are modelled as `List Char`.  The JavaScript regular expressions used by
the controller are embedded as deterministic character scanners that follow the
regex engine behaviour for exactly these patterns:

* `@\[([^\]]+)\]\((\d+)\)` with the `g` flag — leftmost, non-overlapping
  matches; `[^\]]+` runs to the first `]`; `\d+` is a maximal digit run
  followed by `)`.
* `@([a-zA-Z0-9._-]+)` with the `g` flag — `@` followed by a maximal run of
  handle characters.
* the dynamically built patterns of `anonymizeContent`, where the alias key is
  interpolated verbatim, so a `.` inside a key behaves as the regex wildcard
  (any character except a line terminator) and `\b` is a word boundary.

Scanning functions are written with an explicit fuel argument (the wrappers
pass the text length) so that every definition reduces in the kernel.
-/

namespace SafeHarbour

/-- JS `\d`: ASCII digit. -/
def isDigitChar (c : Char) : Bool := '0' ≤ c && c ≤ '9'

/-- JS `\w` (used by the `\b` word-boundary assertion). -/
def isWordChar (c : Char) : Bool :=
  ('a' ≤ c && c ≤ 'z') || ('A' ≤ c && c ≤ 'Z') || ('0' ≤ c && c ≤ '9') || c = '_'

/-- Character class `[a-zA-Z0-9._-]` of the plain-handle pattern. -/
def isHandleChar (c : Char) : Bool :=
  ('a' ≤ c && c ≤ 'z') || ('A' ≤ c && c ≤ 'Z') || ('0' ≤ c && c ≤ '9') ||
    c = '.' || c = '_' || c = '-'

/-- JS line terminators, which the `.` wildcard does not match. -/
def isLineTerm (c : Char) : Bool :=
  c = '\n' || c = '\r' || c = ' ' || c = ' '

/-- Lowercasing of a text, as `String.prototype.toLowerCase` acts on the
    ASCII alphabet the handle pattern can produce. -/
def toLowerStr (s : List Char) : List Char := s.map Char.toLower

/-- Insertion into a JS `Set` / spreading back to an array: duplicates are
    dropped, the first occurrence keeps its place. -/
def dedupFirstAux (seen : List (List Char)) : List (List Char) → List (List Char)
  | [] => []
  | x :: xs => if x ∈ seen then dedupFirstAux seen xs else x :: dedupFirstAux (x :: seen) xs

def dedupFirst (l : List (List Char)) : List (List Char) := dedupFirstAux [] l

theorem mem_dedupFirstAux {x : List Char} :
    ∀ {seen l : List (List Char)}, x ∈ dedupFirstAux seen l ↔ x ∈ l ∧ x ∉ seen := by
  intro seen l
  induction l generalizing seen with
  | nil => simp [dedupFirstAux]
  | cons y ys ih =>
    by_cases hy : y ∈ seen
    · rw [dedupFirstAux, if_pos hy, ih]
      constructor
      · rintro ⟨h1, h2⟩; exact ⟨List.mem_cons_of_mem _ h1, h2⟩
      · rintro ⟨h1, h2⟩
        rcases List.mem_cons.mp h1 with rfl | h1
        · exact absurd hy h2
        · exact ⟨h1, h2⟩
    · rw [dedupFirstAux, if_neg hy]
      constructor
      · intro hmem
        rcases List.mem_cons.mp hmem with rfl | hmem
        · exact ⟨List.mem_cons_self _ _, hy⟩
        · rcases ih.mp hmem with ⟨h1, h2⟩
          exact ⟨List.mem_cons_of_mem _ h1,
            fun hs => h2 (List.mem_cons_of_mem _ hs)⟩
      · rintro ⟨h1, h2⟩
        rcases List.mem_cons.mp h1 with rfl | h1
        · exact List.mem_cons_self _ _
        · by_cases hxy : x = y
          · exact hxy ▸ List.mem_cons_self _ _
          · exact List.mem_cons_of_mem _ (ih.mpr ⟨h1, fun hs => by
              rcases List.mem_cons.mp hs with h | h
              · exact hxy h
              · exact h2 h⟩)

theorem mem_dedupFirst {x : List Char} {l : List (List Char)} :
    x ∈ dedupFirst l ↔ x ∈ l := by
  unfold dedupFirst
  rw [mem_dedupFirstAux]
  simp

theorem nodup_dedupFirstAux :
    ∀ {seen l : List (List Char)}, (dedupFirstAux seen l).Nodup := by
  intro seen l
  induction l generalizing seen with
  | nil => simp [dedupFirstAux]
  | cons y ys ih =>
    by_cases hy : y ∈ seen
    · simpa [dedupFirstAux, if_pos hy] using ih
    · simp only [dedupFirstAux, if_neg hy, List.nodup_cons]
      refine ⟨fun hmem => ?_, ih⟩
      rcases mem_dedupFirstAux.mp hmem with ⟨_, hns⟩
      exact hns (List.mem_cons_self _ _)

theorem nodup_dedupFirst {l : List (List Char)} : (dedupFirst l).Nodup :=
  nodup_dedupFirstAux

theorem sublist_dedupFirstAux :
    ∀ {seen l : List (List Char)}, (dedupFirstAux seen l).Sublist l := by
  intro seen l
  induction l generalizing seen with
  | nil => simp [dedupFirstAux]
  | cons y ys ih =>
    by_cases hy : y ∈ seen
    · rw [dedupFirstAux, if_pos hy]
      exact List.Sublist.cons y ih
    · rw [dedupFirstAux, if_neg hy]
      exact List.Sublist.cons₂ y ih

theorem sublist_dedupFirst {l : List (List Char)} : (dedupFirst l).Sublist l :=
  sublist_dedupFirstAux

/-- Split a text at the first `]` (how the backtracking-free class `[^\]]+`
    followed by `\]` consumes input). -/
def splitAtRB : List Char → Option (List Char × List Char)
  | [] => none
  | c :: cs =>
    if c = ']' then some ([], cs)
    else
      match splitAtRB cs with
      | some (a, b) => some (c :: a, b)
      | none => none

theorem splitAtRB_eq_some {cs a b : List Char} (h : splitAtRB cs = some (a, b)) :
    cs = a ++ ']' :: b ∧ ']' ∉ a := by
  induction cs generalizing a b with
  | nil => simp [splitAtRB] at h
  | cons c cs ih =>
    by_cases hc : c = ']'
    · subst hc
      simp only [splitAtRB, if_pos rfl, Option.some_inj, Prod.mk.injEq] at h
      obtain ⟨rfl, rfl⟩ := h
      simp
    · simp only [splitAtRB, if_neg hc] at h
      cases hsub : splitAtRB cs with
      | none => rw [hsub] at h; simp at h
      | some p =>
        obtain ⟨a', b'⟩ := p
        rw [hsub] at h
        simp only [Option.some_inj, Prod.mk.injEq] at h
        obtain ⟨rfl, rfl⟩ := h
        obtain ⟨heq, hnm⟩ := ih hsub
        subst heq
        refine ⟨rfl, ?_⟩
        simp only [List.mem_cons]
        rintro (rfl | hmem)
        · exact hc rfl
        · exact hnm hmem

theorem splitAtRB_of_shape {a b : List Char} (ha : ']' ∉ a) :
    splitAtRB (a ++ ']' :: b) = some (a, b) := by
  induction a with
  | nil => simp [splitAtRB]
  | cons c a ih =>
    have hc : c ≠ ']' := fun h => ha (h ▸ List.mem_cons_self _ _)
    have ha' : ']' ∉ a := fun h => ha (List.mem_cons_of_mem _ h)
    simp [splitAtRB, hc, ih ha']

/-- Maximal run of characters satisfying `p` (greedy `p+` with nothing to
    backtrack into). -/
def takeRun (p : Char → Bool) : List Char → List Char × List Char
  | [] => ([], [])
  | c :: cs =>
    if p c then
      let r := takeRun p cs
      (c :: r.1, r.2)
    else ([], c :: cs)

theorem takeRun_spec (p : Char → Bool) (l : List Char) :
    l = (takeRun p l).1 ++ (takeRun p l).2 := by
  induction l with
  | nil => simp [takeRun]
  | cons c cs ih =>
    by_cases hc : p c = true
    · simp only [takeRun, if_pos hc]
      simpa using congrArg (c :: ·) ih
    · simp [takeRun, if_neg hc]

theorem takeRun_all (p : Char → Bool) (l : List Char) :
    ∀ c ∈ (takeRun p l).1, p c = true := by
  induction l with
  | nil => simp [takeRun]
  | cons c cs ih =>
    by_cases hc : p c = true
    · simp only [takeRun, if_pos hc]
      intro d hd
      rcases List.mem_cons.mp hd with rfl | hd
      · exact hc
      · exact ih d hd
    · simp [takeRun, if_neg hc]

theorem takeRun_head (p : Char → Bool) (l : List Char) :
    ∀ c cs, (takeRun p l).2 = c :: cs → p c = false := by
  induction l with
  | nil => simp [takeRun]
  | cons c cs ih =>
    by_cases hc : p c = true
    · simp only [takeRun, if_pos hc]
      exact ih
    · have hc' : p c = false := by simpa using hc
      simp only [takeRun, if_neg hc]
      intro d ds hd
      cases hd
      exact hc'

theorem takeRun_of_shape (p : Char → Bool) {a b : List Char}
    (ha : ∀ c ∈ a, p c = true) (hb : ∀ c cs, b = c :: cs → p c = false) :
    takeRun p (a ++ b) = (a, b) := by
  induction a with
  | nil =>
    cases b with
    | nil => simp [takeRun]
    | cons c cs => simp [takeRun, hb c cs rfl]
  | cons c a ih =>
    have hc : p c = true := ha c (List.mem_cons_self _ _)
    have ha' : ∀ d ∈ a, p d = true := fun d hd => ha d (List.mem_cons_of_mem _ hd)
    simp [takeRun, hc, ih ha']

/-- The literal text of one structured reference `@[name](id)`. -/
def lexUin (name id : List Char) : List Char :=
  '@' :: '[' :: (name ++ ']' :: '(' :: (id ++ [')']))

/-- Attempt to match `@\[([^\]]+)\]\((\d+)\)` at the head of the text.
    Returns the display name, the digit run and the rest of the text. -/
def matchUinAt : List Char → Option (List Char × List Char × List Char)
  | '@' :: '[' :: cs =>
    match splitAtRB cs with
    | some (name, rest1) =>
      if name = [] then none
      else
        match rest1 with
        | '(' :: cs2 =>
          match takeRun isDigitChar cs2 with
          | (ds, rest2) =>
            if ds = [] then none
            else
              match rest2 with
              | ')' :: rest => some (name, ds, rest)
              | _ => none
        | _ => none
    | none => none
  | _ => none

theorem matchUinAt_spec {t name ds rest : List Char}
    (h : matchUinAt t = some (name, ds, rest)) :
    t = lexUin name ds ++ rest ∧ name ≠ [] ∧ ']' ∉ name ∧ ds ≠ [] ∧
      ∀ c ∈ ds, isDigitChar c = true := by
  rw [matchUinAt.eq_def] at h
  split at h
  next cs =>
    cases hsplit : splitAtRB cs with
    | none => rw [hsplit] at h; simp at h
    | some p =>
      obtain ⟨nm, rest1⟩ := p
      rw [hsplit] at h
      simp only at h
      by_cases hnm : nm = []
      · rw [if_pos hnm] at h; simp at h
      · rw [if_neg hnm] at h
        split at h
        next cs2 =>
          obtain ⟨run, rest2, hrun⟩ : ∃ a b, takeRun isDigitChar cs2 = (a, b) :=
            ⟨_, _, rfl⟩
          rw [hrun] at h
          simp only at h
          by_cases hds : run = []
          · rw [if_pos hds] at h; exact absurd h (by simp)
          · rw [if_neg hds] at h
            split at h
            next mv0 restm =>
              simp only [Option.some_inj, Prod.mk.injEq] at h
              obtain ⟨rfl, rfl, rfl⟩ := h
              obtain ⟨hcs, hnmem⟩ := splitAtRB_eq_some hsplit
              have hcs2 : cs2 = run ++ ')' :: restm := by
                have hsp := takeRun_spec isDigitChar cs2
                rw [hrun] at hsp
                exact hsp
              subst hcs hcs2
              refine ⟨by simp [lexUin], hnm, hnmem, hds, ?_⟩
              intro c hc
              have hall := takeRun_all isDigitChar (run ++ ')' :: restm)
              rw [hrun] at hall
              exact hall c hc
            next => exact absurd h (by simp)
        next => exact absurd h (by simp)
  next =>
    exact absurd h (by simp)

theorem matchUinAt_lexeme {name id rest : List Char} (hn : name ≠ []) (hnb : ']' ∉ name)
    (hi : id ≠ []) (hd : ∀ c ∈ id, isDigitChar c = true) :
    matchUinAt (lexUin name id ++ rest) = some (name, id, rest) := by
  have h1 : lexUin name id ++ rest =
      '@' :: '[' :: (name ++ ']' :: '(' :: (id ++ ')' :: rest)) := by
    simp [lexUin]
  rw [h1]
  simp only [matchUinAt]
  rw [splitAtRB_of_shape hnb]
  simp only [if_neg hn]
  have hrun : takeRun isDigitChar (id ++ ')' :: rest) = (id, ')' :: rest) :=
    takeRun_of_shape isDigitChar hd (by intro c cs h; cases h; decide)
  rw [hrun]
  simp [if_neg hi]

theorem matchUinAt_length {t name ds rest : List Char}
    (h : matchUinAt t = some (name, ds, rest)) : rest.length < t.length := by
  obtain ⟨heq, -, -, -, -⟩ := matchUinAt_spec h
  subst heq
  simp [lexUin]
  omega

/-- All leftmost, non-overlapping structured matches (`matchAll` with the
    `g` flag), as (display name, digit run) pairs. -/
def scanUinF : Nat → List Char → List (List Char × List Char)
  | _, [] => []
  | 0, _ :: _ => []
  | f + 1, c :: cs =>
    match matchUinAt (c :: cs) with
    | some (name, ds, rest) => (name, ds) :: scanUinF f rest
    | none => scanUinF f cs

def scanUin (s : List Char) : List (List Char × List Char) := scanUinF s.length s

theorem scanUinF_congr : ∀ (f g : Nat) (s : List Char), s.length ≤ f → s.length ≤ g →
    scanUinF f s = scanUinF g s := by
  intro f
  induction f with
  | zero =>
    intro g s hf _
    have : s = [] := List.length_eq_zero.mp (Nat.le_zero.mp hf)
    subst this
    cases g <;> rfl
  | succ f ih =>
    intro g s hf hg
    cases s with
    | nil => cases g <;> rfl
    | cons c cs =>
      cases g with
      | zero => simp at hg
      | succ g =>
        simp only [scanUinF]
        cases hm : matchUinAt (c :: cs) with
        | some p =>
          obtain ⟨name, ds, rest⟩ := p
          have hlen := matchUinAt_length hm
          simp only [List.length_cons] at hf hg hlen
          show (name, ds) :: scanUinF f rest = (name, ds) :: scanUinF g rest
          rw [ih g rest (by omega) (by omega)]
        | none =>
          simp only [List.length_cons] at hf hg
          show scanUinF f cs = scanUinF g cs
          exact ih g cs (by omega) (by omega)

theorem scanUin_eq_scanUinF {f : Nat} {s : List Char} (h : s.length ≤ f) :
    scanUin s = scanUinF f s :=
  scanUinF_congr s.length f s (Nat.le_refl _) h

/-- `content.replace(/@\[[^\]]+\]\(\d+\)/g, '')`: delete every structured
    match, keep everything else. -/
def removeUinF : Nat → List Char → List Char
  | _, [] => []
  | 0, s => s
  | f + 1, c :: cs =>
    match matchUinAt (c :: cs) with
    | some (_, _, rest) => removeUinF f rest
    | none => c :: removeUinF f cs

def removeUin (s : List Char) : List Char := removeUinF s.length s

theorem removeUinF_congr : ∀ (f g : Nat) (s : List Char), s.length ≤ f → s.length ≤ g →
    removeUinF f s = removeUinF g s := by
  intro f
  induction f with
  | zero =>
    intro g s hf _
    have : s = [] := List.length_eq_zero.mp (Nat.le_zero.mp hf)
    subst this
    cases g <;> rfl
  | succ f ih =>
    intro g s hf hg
    cases s with
    | nil => cases g <;> rfl
    | cons c cs =>
      cases g with
      | zero => simp at hg
      | succ g =>
        simp only [removeUinF]
        cases hm : matchUinAt (c :: cs) with
        | some p =>
          obtain ⟨name, ds, rest⟩ := p
          have hlen := matchUinAt_length hm
          simp only [List.length_cons] at hf hg hlen
          show removeUinF f rest = removeUinF g rest
          rw [ih g rest (by omega) (by omega)]
        | none =>
          simp only [List.length_cons] at hf hg
          show c :: removeUinF f cs = c :: removeUinF g cs
          rw [ih g cs (by omega) (by omega)]

theorem removeUin_eq_removeUinF {f : Nat} {s : List Char} (h : s.length ≤ f) :
    removeUin s = removeUinF f s :=
  removeUinF_congr s.length f s (Nat.le_refl _) h

/-- All matches of `@([a-zA-Z0-9._-]+)` with the `g` flag: the captured
    handles, leftmost first. -/
def scanUserF : Nat → List Char → List (List Char)
  | _, [] => []
  | 0, _ :: _ => []
  | f + 1, c :: cs =>
    if c = '@' then
      match takeRun isHandleChar cs with
      | ([], _) => scanUserF f cs
      | (h₁ :: h₂, rest) => (h₁ :: h₂) :: scanUserF f rest
    else scanUserF f cs

def scanUser (s : List Char) : List (List Char) := scanUserF s.length s

theorem scanUserF_congr : ∀ (f g : Nat) (s : List Char), s.length ≤ f → s.length ≤ g →
    scanUserF f s = scanUserF g s := by
  intro f
  induction f with
  | zero =>
    intro g s hf _
    have : s = [] := List.length_eq_zero.mp (Nat.le_zero.mp hf)
    subst this
    cases g <;> rfl
  | succ f ih =>
    intro g s hf hg
    cases s with
    | nil => cases g <;> rfl
    | cons c cs =>
      cases g with
      | zero => simp at hg
      | succ g =>
        simp only [scanUserF]
        by_cases hc : c = '@'
        · simp only [if_pos hc]
          cases hrun : takeRun isHandleChar cs with
          | mk run rest =>
            cases run with
            | nil =>
              simp only [List.length_cons] at hf hg
              show scanUserF f cs = scanUserF g cs
              exact ih g cs (by omega) (by omega)
            | cons h₁ h₂ =>
              have hsplit := takeRun_spec isHandleChar cs
              rw [hrun] at hsplit
              have hlen : rest.length ≤ cs.length := by
                rw [hsplit]
                simp
                omega
              simp only [List.length_cons] at hf hg
              show (h₁ :: h₂) :: scanUserF f rest = (h₁ :: h₂) :: scanUserF g rest
              rw [ih g rest (by omega) (by omega)]
        · simp only [if_neg hc, List.length_cons] at hf hg ⊢
          exact ih g cs (by omega) (by omega)

theorem scanUser_eq_scanUserF {f : Nat} {s : List Char} (h : s.length ≤ f) :
    scanUser s = scanUserF f s :=
  scanUserF_congr s.length f s (Nat.le_refl _) h

/-- Result shape of the server's `extractMentions`. -/
structure MentionResult where
  uins : List (List Char)
  usernames : List (List Char)
deriving DecidableEq, Repr

/-- `extractMentions` from `reportController.ts`: structured ids deduplicated
    first-seen; plain handles scanned over the text with structured spans
    removed, lowercased, then deduplicated first-seen. -/
def extractMentions (content : List Char) : MentionResult :=
  { uins := dedupFirst ((scanUin content).map Prod.snd)
  , usernames := dedupFirst ((scanUser (removeUin content)).map toLowerStr) }


theorem append_split {a b c d : List Char} (h : a ++ b = c ++ d)
    (hl : a.length ≤ c.length) : ∃ e, c = a ++ e ∧ b = e ++ d := by
  induction a generalizing c with
  | nil => exact ⟨c, rfl, h⟩
  | cons x a ih =>
    cases c with
    | nil => simp at hl
    | cons y c =>
      simp only [List.cons_append, List.cons.injEq] at h
      obtain ⟨rfl, h⟩ := h
      simp only [List.length_cons] at hl
      obtain ⟨e, rfl, he⟩ := ih h (by omega)
      exact ⟨e, rfl, he⟩

theorem sep_split_unique {Q : Char → Bool} {sep : Char} :
    ∀ {a b x y : List Char}, (∀ c ∈ a, Q c = true) → (∀ c ∈ b, Q c = true) →
      Q sep = false → a ++ sep :: x = b ++ sep :: y → a = b ∧ x = y := by
  intro a
  induction a with
  | nil =>
    intro b x y _ hb hsep h
    cases b with
    | nil => simpa using h
    | cons d b =>
      simp only [List.nil_append, List.cons_append, List.cons.injEq] at h
      obtain ⟨rfl, -⟩ := h
      rw [hb sep (List.mem_cons_self _ _)] at hsep
      simp at hsep
  | cons c a ih =>
    intro b x y ha hb hsep h
    cases b with
    | nil =>
      simp only [List.cons_append, List.nil_append, List.cons.injEq] at h
      obtain ⟨rfl, -⟩ := h
      rw [ha c (List.mem_cons_self _ _)] at hsep
      simp at hsep
    | cons d b =>
      simp only [List.cons_append, List.cons.injEq] at h
      obtain ⟨rfl, h⟩ := h
      obtain ⟨h1, h2⟩ := ih (fun e he => ha e (List.mem_cons_of_mem _ he))
        (fun e he => hb e (List.mem_cons_of_mem _ he)) hsep h
      exact ⟨by rw [h1], h2⟩

theorem lexUin_append (name id r : List Char) :
    lexUin name id ++ r = '@' :: '[' :: (name ++ ']' :: '(' :: (id ++ ')' :: r)) := by
  simp [lexUin]

theorem lexUin_length (name id : List Char) :
    (lexUin name id).length = name.length + id.length + 5 := by
  simp [lexUin]
  omega

/-- `id` occurs somewhere in `t` as the digit run of a well-formed structured
    reference `@[name](id)`. -/
def occursUin (id t : List Char) : Prop :=
  ∃ l name r, t = l ++ (lexUin name id ++ r) ∧ name ≠ [] ∧ ']' ∉ name ∧
    id ≠ [] ∧ ∀ c ∈ id, isDigitChar c = true

/-- A structured reference overlapping the leftmost structured match must
    share its digit run. -/
theorem lexUin_overlap : ∀ {l nm dm name id rest r : List Char},
    l ++ (lexUin name id ++ r) = lexUin nm dm ++ rest →
    l.length < (lexUin nm dm).length →
    ']' ∉ nm → ']' ∉ name →
    (∀ c ∈ dm, isDigitChar c = true) → (∀ c ∈ id, isDigitChar c = true) →
    id = dm := by
  intro l nm dm name id rest r h hlen hnm hname hdm hid
  have hQname : ∀ c ∈ name, (c != ']') = true := fun c hc => by
    have : c ≠ ']' := fun e => hname (e ▸ hc)
    simpa using this
  rw [lexUin_append name id r, lexUin_append nm dm rest] at h
  cases l with
  | nil =>
    rw [List.nil_append] at h
    simp only [List.cons.injEq, true_and] at h
    have hQnm : ∀ c ∈ nm, (c != ']') = true := fun c hc => by
      have : c ≠ ']' := fun e => hnm (e ▸ hc)
      simpa using this
    obtain ⟨-, h2⟩ := sep_split_unique hQname hQnm (by decide) h
    simp only [List.cons.injEq, true_and] at h2
    exact (sep_split_unique hid hdm (by decide) h2).1
  | cons c l₁ =>
    simp only [List.cons_append, List.cons.injEq] at h
    obtain ⟨rfl, h⟩ := h
    cases l₁ with
    | nil =>
      rw [List.nil_append] at h
      simp at h
    | cons c₂ l₂ =>
      simp only [List.cons_append, List.cons.injEq] at h
      obtain ⟨rfl, h⟩ := h
      by_cases hcase : l₂.length ≤ nm.length
      · obtain ⟨e, he, hx⟩ := append_split h hcase
        cases e with
        | nil => simp at hx
        | cons d e₁ =>
          simp only [List.cons_append, List.cons.injEq] at hx
          obtain ⟨rfl, hx⟩ := hx
          cases e₁ with
          | nil => simp at hx
          | cons d₂ e₂ =>
            simp only [List.cons_append, List.cons.injEq] at hx
            obtain ⟨rfl, hx⟩ := hx
            have he2 : ∀ c ∈ e₂, (c != ']') = true := fun c hc => by
              have hmem : c ∈ nm := by
                rw [he]
                exact List.mem_append_right _
                  (List.mem_cons_of_mem _ (List.mem_cons_of_mem _ hc))
              have : c ≠ ']' := fun e => hnm (e ▸ hmem)
              simpa using this
            obtain ⟨-, hx2⟩ := sep_split_unique hQname he2 (by decide) hx
            simp only [List.cons.injEq, true_and] at hx2
            exact (sep_split_unique hid hdm (by decide) hx2).1
      · push_neg at hcase
        obtain ⟨e, he, hx⟩ := append_split h.symm (Nat.le_of_lt hcase)
        cases e with
        | nil => simp at hx
        | cons d e₁ =>
          simp only [List.cons_append, List.cons.injEq] at hx
          obtain ⟨rfl, hx⟩ := hx
          cases e₁ with
          | nil => simp at hx
          | cons d₂ e₂ =>
            simp only [List.cons_append, List.cons.injEq] at hx
            obtain ⟨rfl, hx⟩ := hx
            by_cases h2 : e₂.length ≤ dm.length
            · obtain ⟨e₃, he3, hx3⟩ := append_split hx.symm h2
              cases e₃ with
              | nil => simp at hx3
              | cons d₃ e₄ =>
                simp only [List.cons_append, List.cons.injEq] at hx3
                obtain ⟨rfl, -⟩ := hx3
                have hat : isDigitChar '@' = true := hdm '@' (by
                  rw [he3]
                  exact List.mem_append_right _ (List.mem_cons_self _ _))
                simp [isDigitChar] at hat
            · push_neg at h2
              obtain ⟨e₃, he3, hx3⟩ := append_split hx (Nat.le_of_lt h2)
              cases e₃ with
              | nil => simp at hx3
              | cons d₃ e₄ =>
                simp only [List.cons_append, List.cons.injEq] at hx3
                obtain ⟨rfl, hx3⟩ := hx3
                exfalso
                subst he3
                subst he
                rw [lexUin_length] at hlen
                simp at hlen
                omega


theorem scanUinF_sound : ∀ (f : Nat) (t nm d : List Char), (nm, d) ∈ scanUinF f t →
    ∃ l r, t = l ++ (lexUin nm d ++ r) ∧ nm ≠ [] ∧ ']' ∉ nm ∧ d ≠ [] ∧
      ∀ c ∈ d, isDigitChar c = true := by
  intro f
  induction f with
  | zero =>
    intro t nm d h
    cases t <;> simp [scanUinF] at h
  | succ f ih =>
    intro t nm d h
    cases t with
    | nil => simp [scanUinF] at h
    | cons c cs =>
      simp only [scanUinF] at h
      cases hm : matchUinAt (c :: cs) with
      | some p =>
        obtain ⟨name, ds, rest⟩ := p
        rw [hm] at h
        replace h : (nm, d) ∈ (name, ds) :: scanUinF f rest := h
        obtain ⟨heq, hn, hb, hd, hdig⟩ := matchUinAt_spec hm
        rcases List.mem_cons.mp h with h | h
        · rw [Prod.mk.injEq] at h
          obtain ⟨rfl, rfl⟩ := h
          exact ⟨[], rest, by simpa using heq, hn, hb, hd, hdig⟩
        · obtain ⟨l, r, hrest, h2, h3, h4, h5⟩ := ih rest nm d h
          refine ⟨lexUin name ds ++ l, r, ?_, h2, h3, h4, h5⟩
          rw [heq, hrest]
          simp
      | none =>
        rw [hm] at h
        replace h : (nm, d) ∈ scanUinF f cs := h
        obtain ⟨l, r, hcs, h2, h3, h4, h5⟩ := ih cs nm d h
        refine ⟨c :: l, r, ?_, h2, h3, h4, h5⟩
        rw [hcs]
        simp


theorem scanUinF_complete : ∀ (f : Nat) (t : List Char), t.length ≤ f →
    ∀ (l name id r : List Char), t = l ++ (lexUin name id ++ r) → name ≠ [] →
      ']' ∉ name → id ≠ [] → (∀ c ∈ id, isDigitChar c = true) →
      id ∈ (scanUinF f t).map Prod.snd := by
  intro f
  induction f with
  | zero =>
    intro t hf l name id r ht _ _ _ _
    have : t = [] := List.length_eq_zero.mp (Nat.le_zero.mp hf)
    subst this
    rw [lexUin_append] at ht
    simp at ht
  | succ f ih =>
    intro t hf l name id r ht hn hb hi hd
    cases t with
    | nil =>
      rw [lexUin_append] at ht
      simp at ht
    | cons c cs =>
      simp only [scanUinF]
      cases hm : matchUinAt (c :: cs) with
      | none =>
        cases l with
        | nil =>
          rw [List.nil_append] at ht
          rw [ht, matchUinAt_lexeme hn hb hi hd] at hm
          exact absurd hm (by simp)
        | cons c' l' =>
          simp only [List.cons_append, List.cons.injEq] at ht
          obtain ⟨rfl, hcs⟩ := ht
          show id ∈ (scanUinF f cs).map Prod.snd
          simp only [List.length_cons] at hf
          exact ih cs (by omega) l' name id r hcs hn hb hi hd
      | some p =>
        obtain ⟨nm, dm, rest⟩ := p
        obtain ⟨heq, hnm2, hbm, hdm2, hdigm⟩ := matchUinAt_spec hm
        show id ∈ ((nm, dm) :: scanUinF f rest).map Prod.snd
        have hcomb : l ++ (lexUin name id ++ r) = lexUin nm dm ++ rest :=
          ht.symm.trans heq
        by_cases hlen : (lexUin nm dm).length ≤ l.length
        · obtain ⟨e, hle, hre⟩ := append_split hcomb.symm hlen
          have hrlen : rest.length ≤ f := by
            have h1 := congrArg List.length heq
            simp only [List.length_cons, List.length_append, lexUin_length] at h1 hf
            omega
          have hmem := ih rest hrlen e name id r hre hn hb hi hd
          simp only [List.map_cons]
          exact List.mem_cons_of_mem _ hmem
        · push_neg at hlen
          have : id = dm := lexUin_overlap hcomb hlen hbm hb hdigm hd
          subst this
          simp

/-- `h` occurs in `s` as a maximal plain `@handle` reference. -/
def occursPlain (h s : List Char) : Prop :=
  ∃ l r, s = l ++ ('@' :: (h ++ r)) ∧ h ≠ [] ∧ (∀ c ∈ h, isHandleChar c = true) ∧
    ∀ c cs, r = c :: cs → isHandleChar c = false

theorem scanUserF_sound : ∀ (f : Nat) (t u : List Char), u ∈ scanUserF f t →
    occursPlain u t := by
  intro f
  induction f with
  | zero =>
    intro t u hmem
    cases t <;> simp [scanUserF] at hmem
  | succ f ih =>
    intro t u hmem
    cases t with
    | nil => simp [scanUserF] at hmem
    | cons c cs =>
      simp only [scanUserF] at hmem
      by_cases hc : c = '@'
      · rw [if_pos hc] at hmem
        subst hc
        cases hrun : takeRun isHandleChar cs with
        | mk run rest =>
          rw [hrun] at hmem
          cases run with
          | nil =>
            replace hmem : u ∈ scanUserF f cs := hmem
            obtain ⟨l, r, hcs, h1, h2, h3⟩ := ih cs u hmem
            exact ⟨'@' :: l, r, by rw [hcs]; simp, h1, h2, h3⟩
          | cons h₁ h₂ =>
            replace hmem : u ∈ (h₁ :: h₂) :: scanUserF f rest := hmem
            have hcs : cs = (h₁ :: h₂) ++ rest := by
              have := takeRun_spec isHandleChar cs
              rw [hrun] at this
              exact this
            rcases List.mem_cons.mp hmem with rfl | hmem
            · refine ⟨[], rest, by rw [hcs]; rfl, by simp, ?_, ?_⟩
              · intro d hd
                have := takeRun_all isHandleChar cs
                rw [hrun] at this
                exact this d hd
              · intro d ds hds
                have := takeRun_head isHandleChar cs
                rw [hrun] at this
                exact this d ds hds
            · obtain ⟨l, r, hrest, h1, h2, h3⟩ := ih rest u hmem
              refine ⟨'@' :: ((h₁ :: h₂) ++ l), r, ?_, h1, h2, h3⟩
              rw [hcs, hrest]
              simp
      · rw [if_neg hc] at hmem
        obtain ⟨l, r, hcs, h1, h2, h3⟩ := ih cs u hmem
        exact ⟨c :: l, r, by rw [hcs]; rfl, h1, h2, h3⟩

theorem scanUserF_complete : ∀ (f : Nat) (t : List Char), t.length ≤ f →
    ∀ u, occursPlain u t → u ∈ scanUserF f t := by
  intro f
  induction f with
  | zero =>
    intro t hf u hu
    have : t = [] := List.length_eq_zero.mp (Nat.le_zero.mp hf)
    subst this
    obtain ⟨l, r, hl, -, -, -⟩ := hu
    simp at hl
  | succ f ih =>
    intro t hf u hu
    cases t with
    | nil =>
      obtain ⟨l, r, hl, -, -, -⟩ := hu
      simp at hl
    | cons c cs =>
      obtain ⟨l, r, hl, hne, hchar, hmax⟩ := hu
      simp only [List.length_cons] at hf
      simp only [scanUserF]
      by_cases hc : c = '@'
      · rw [if_pos hc]
        subst hc
        cases hrun : takeRun isHandleChar cs with
        | mk run rest =>
          have hcs : cs = run ++ rest := by
            have := takeRun_spec isHandleChar cs
            rw [hrun] at this
            exact this
          cases run with
          | nil =>
            show u ∈ scanUserF f cs
            cases l with
            | nil =>
              simp only [List.nil_append, List.cons.injEq, true_and] at hl
              cases hu0 : u with
              | nil => exact absurd hu0 hne
              | cons u₀ u' =>
                subst hu0
                have hh : isHandleChar u₀ = true := hchar u₀ (List.mem_cons_self _ _)
                rw [hl] at hrun
                simp only [List.cons_append, takeRun, hh, if_pos] at hrun
                simp at hrun
            | cons c' l' =>
              simp only [List.cons_append, List.cons.injEq] at hl
              obtain ⟨-, hl⟩ := hl
              exact ih cs (by omega) u ⟨l', r, hl, hne, hchar, hmax⟩
          | cons h₁ h₂ =>
            show u ∈ (h₁ :: h₂) :: scanUserF f rest
            cases l with
            | nil =>
              simp only [List.nil_append, List.cons.injEq, true_and] at hl
              have : takeRun isHandleChar cs = (u, r) := by
                rw [hl]
                exact takeRun_of_shape isHandleChar hchar hmax
              rw [hrun] at this
              simp only [Prod.mk.injEq] at this
              obtain ⟨h1, -⟩ := this
              rw [← h1]
              exact List.mem_cons_self _ _
            | cons c' l' =>
              simp only [List.cons_append, List.cons.injEq] at hl
              obtain ⟨-, hl⟩ := hl
              have hrest_len : rest.length ≤ f := by
                have := congrArg List.length hcs
                simp only [List.length_append, List.length_cons] at this
                omega
              by_cases hll : l'.length ≤ (h₁ :: h₂).length
              · have hcomb : l' ++ ('@' :: (u ++ r)) = (h₁ :: h₂) ++ rest := by
                  rw [← hl, ← hcs]
                obtain ⟨e, hrun2, hre⟩ := append_split hcomb hll
                cases e with
                | nil =>
                  rw [List.nil_append] at hre
                  exact List.mem_cons_of_mem _
                    (ih rest hrest_len u ⟨[], r, hre.symm, hne, hchar, hmax⟩)
                | cons d e₁ =>
                  exfalso
                  simp only [List.cons_append, List.cons.injEq] at hre
                  obtain ⟨rfl, -⟩ := hre
                  have : isHandleChar '@' = true := by
                    have hall := takeRun_all isHandleChar cs
                    rw [hrun] at hall
                    refine hall '@' ?_
                    rw [hrun2]
                    exact List.mem_append_right _ (List.mem_cons_self _ _)
                  simp [isHandleChar] at this
              · push_neg at hll
                have hcomb : (h₁ :: h₂) ++ rest = l' ++ ('@' :: (u ++ r)) := by
                  rw [← hl, ← hcs]
                obtain ⟨e, hl2, hre⟩ := append_split hcomb (Nat.le_of_lt hll)
                exact List.mem_cons_of_mem _
                  (ih rest hrest_len u ⟨e, r, hre, hne, hchar, hmax⟩)
      · rw [if_neg hc]
        cases l with
        | nil =>
          simp only [List.nil_append, List.cons.injEq] at hl
          exact absurd hl.1 hc
        | cons c' l' =>
          simp only [List.cons_append, List.cons.injEq] at hl
          obtain ⟨-, hl⟩ := hl
          exact ih cs (by omega) u ⟨l', r, hl, hne, hchar, hmax⟩


/-- Claim C4 (confirmed): `extractMentions` reports exactly the digit runs of
the well-formed structured references occurring anywhere in the text, and
exactly the lowercasings of the maximal plain `@handle` references occurring
in the text with all structured-reference spans removed (so a structured
reference's bracketed name is never parsed as a plain handle); both lists are
duplicate-free and keep first-seen scan order (they are order-preserving
sublists of the raw match lists). -/
theorem claim_C4 (t : List Char) :
    (extractMentions t).uins.Nodup ∧
    (extractMentions t).usernames.Nodup ∧
    (∀ id, id ∈ (extractMentions t).uins ↔ occursUin id t) ∧
    (∀ u, u ∈ (extractMentions t).usernames ↔
      ∃ h, occursPlain h (removeUin t) ∧ u = toLowerStr h) ∧
    (extractMentions t).uins.Sublist ((scanUin t).map Prod.snd) ∧
    (extractMentions t).usernames.Sublist ((scanUser (removeUin t)).map toLowerStr) := by
  refine ⟨nodup_dedupFirst, nodup_dedupFirst, ?_, ?_, sublist_dedupFirst, sublist_dedupFirst⟩
  · intro id
    constructor
    · intro hmem
      rw [extractMentions, mem_dedupFirst, List.mem_map] at hmem
      obtain ⟨p, hp, rfl⟩ := hmem
      obtain ⟨l, r, ht, h1, h2, h3, h4⟩ :=
        scanUinF_sound t.length t p.1 p.2 (by simpa using hp)
      exact ⟨l, p.1, r, ht, h1, h2, h3, h4⟩
    · intro hocc
      obtain ⟨l, name, r, ht, h1, h2, h3, h4⟩ := hocc
      rw [extractMentions, mem_dedupFirst]
      exact scanUinF_complete t.length t (Nat.le_refl _) l name id r ht h1 h2 h3 h4
  · intro u
    constructor
    · intro hmem
      rw [extractMentions, mem_dedupFirst, List.mem_map] at hmem
      obtain ⟨h, hp, rfl⟩ := hmem
      exact ⟨h, scanUserF_sound (removeUin t).length (removeUin t) h hp, rfl⟩
    · rintro ⟨h, hocc, rfl⟩
      rw [extractMentions, mem_dedupFirst, List.mem_map]
      exact ⟨h, scanUserF_complete (removeUin t).length (removeUin t) (Nat.le_refl _) h hocc, rfl⟩

/-- Witness for C4 at a concrete text: in `"see @[Jane](42) and @bob"` the id
`42` is recognised as occurring, and the extracted handle `bob` comes from a
plain occurrence in the span-removed text. -/
theorem claim_C4_witness :
    occursUin "42".toList "see @[Jane](42) and @bob".toList ∧
    ∃ h, occursPlain h (removeUin "see @[Jane](42) and @bob".toList) ∧
      "bob".toList = toLowerStr h := by
  constructor
  · exact ((claim_C4 "see @[Jane](42) and @bob".toList).2.2.1 "42".toList).mp (by decide)
  · exact ((claim_C4 "see @[Jane](42) and @bob".toList).2.2.2.1 "bob".toList).mp (by decide)


/-- One pattern character of an interpolated alias key, as the JS regex engine
reads it: `.` is the wildcard (anything but a line terminator); any other
character of the key alphabet denotes itself, case-insensitively when the `i`
flag is set. -/
def patCharMatch (ci : Bool) (p c : Char) : Bool :=
  if p = '.' then !(isLineTerm c)
  else if ci then p.toLower = c.toLower else p = c

/-- Match the interpolated key against the head of the text; returns the
consumed text characters and the rest. -/
def matchKey (ci : Bool) : List Char → List Char → Option (List Char × List Char)
  | [], s => some ([], s)
  | _ :: _, [] => none
  | p :: ps, c :: cs =>
    if patCharMatch ci p c then
      match matchKey ci ps cs with
      | some (con, rest) => some (c :: con, rest)
      | none => none
    else none

/-- The `\b` assertion after the key: exactly one side is a word character
(text end counts as non-word).  `lastC` is the last consumed character, `@`
when the key is empty. -/
def boundaryOK (lastC : Char) (rest : List Char) : Bool :=
  match rest with
  | [] => isWordChar lastC
  | c :: _ => isWordChar lastC != isWordChar c

/-- The regex `@\[[^\]]+\]\(<key>\)` built by `anonymizeContent` (no `i`
flag), tried at the head of the text; returns the rest on success. -/
def matchUinKeyAt (key : List Char) : List Char → Option (List Char)
  | '@' :: '[' :: cs =>
    match splitAtRB cs with
    | some (name, rest1) =>
      if name = [] then none
      else
        match rest1 with
        | '(' :: cs2 =>
          match matchKey false key cs2 with
          | some (_, rest2) =>
            match rest2 with
            | ')' :: rest => some rest
            | _ => none
          | none => none
        | _ => none
    | none => none
  | _ => none

/-- The regex `@<key>\b` with the `gi` flags, tried at the head of the text. -/
def matchUserKeyAt (key : List Char) : List Char → Option (List Char)
  | '@' :: cs =>
    match matchKey true key cs with
    | some (con, rest) =>
      if boundaryOK (con.getLastD '@') rest then some rest else none
    | none => none
  | _ => none

theorem matchKey_spec {ci : Bool} : ∀ {ps s con rest : List Char},
    matchKey ci ps s = some (con, rest) → s = con ++ rest := by
  intro ps
  induction ps with
  | nil =>
    intro s con rest h
    simp only [matchKey, Option.some_inj, Prod.mk.injEq] at h
    obtain ⟨rfl, rfl⟩ := h
    rfl
  | cons p ps ih =>
    intro s con rest h
    cases s with
    | nil => simp [matchKey] at h
    | cons c cs =>
      simp only [matchKey] at h
      by_cases hp : patCharMatch ci p c
      · rw [if_pos hp] at h
        cases hm : matchKey ci ps cs with
        | none => rw [hm] at h; simp at h
        | some q =>
          obtain ⟨con', rest'⟩ := q
          rw [hm] at h
          replace h : some (c :: con', rest') = some (con, rest) := h
          simp only [Option.some_inj, Prod.mk.injEq] at h
          obtain ⟨rfl, rfl⟩ := h
          rw [ih hm]
          rfl
      · rw [if_neg hp] at h
        simp at h

theorem matchUinKeyAt_length {key s rest : List Char}
    (h : matchUinKeyAt key s = some rest) : rest.length < s.length := by
  rw [matchUinKeyAt.eq_def] at h
  split at h
  next cs =>
    cases hsplit : splitAtRB cs with
    | none => rw [hsplit] at h; simp at h
    | some p =>
      obtain ⟨nm, rest1⟩ := p
      rw [hsplit] at h
      simp only at h
      by_cases hnm : nm = []
      · rw [if_pos hnm] at h; simp at h
      · rw [if_neg hnm] at h
        split at h
        next cs2 =>
          cases hk : matchKey false key cs2 with
          | none => rw [hk] at h; simp at h
          | some q =>
            obtain ⟨con, rest2⟩ := q
            rw [hk] at h
            simp only at h
            split at h
            next restm =>
              simp only [Option.some_inj] at h
              subst h
              obtain ⟨hcs, -⟩ := splitAtRB_eq_some hsplit
              have h2 := matchKey_spec hk
              subst hcs
              subst h2
              simp
              omega
            next => exact absurd h (by simp)
        next => exact absurd h (by simp)
  next => exact absurd h (by simp)

theorem matchUserKeyAt_length {key s rest : List Char}
    (h : matchUserKeyAt key s = some rest) : rest.length < s.length := by
  rw [matchUserKeyAt.eq_def] at h
  split at h
  next cs =>
    cases hk : matchKey true key cs with
    | none => rw [hk] at h; simp at h
    | some q =>
      obtain ⟨con, rest2⟩ := q
      rw [hk] at h
      simp only at h
      split at h
      · simp only [Option.some_inj] at h
        subst h
        have h2 := matchKey_spec hk
        subst h2
        simp
        omega
      · exact absurd h (by simp)
  next => exact absurd h (by simp)

/-- Exhaustive replacement (`String.replace` with the `g` flag) for the
structured pattern of one alias key. -/
def replaceUinF (key alia : List Char) : Nat → List Char → List Char
  | _, [] => []
  | 0, s => s
  | f + 1, c :: cs =>
    match matchUinKeyAt key (c :: cs) with
    | some rest => alia ++ replaceUinF key alia f rest
    | none => c :: replaceUinF key alia f cs

def replaceUin (key alia s : List Char) : List Char := replaceUinF key alia s.length s

/-- Exhaustive replacement for the word-bounded case-insensitive handle
pattern of one alias key. -/
def replaceUserF (key alia : List Char) : Nat → List Char → List Char
  | _, [] => []
  | 0, s => s
  | f + 1, c :: cs =>
    match matchUserKeyAt key (c :: cs) with
    | some rest => alia ++ replaceUserF key alia f rest
    | none => c :: replaceUserF key alia f cs

def replaceUser (key alia s : List Char) : List Char := replaceUserF key alia s.length s

/-- `anonymizeContent` from `reportController.ts`: for every alias-map entry
in insertion order, first replace every `@[AnyName](key)` occurrence, then
every word-bounded case-insensitive `@key` occurrence. -/
def anonymizeContent (content : List Char) (aliasMap : List (List Char × List Char)) :
    List Char :=
  aliasMap.foldl (fun acc ka => replaceUser ka.1 ka.2 (replaceUin ka.1 ka.2 acc)) content

theorem replaceUinF_congr (key alia : List Char) :
    ∀ (f g : Nat) (s : List Char), s.length ≤ f → s.length ≤ g →
      replaceUinF key alia f s = replaceUinF key alia g s := by
  intro f
  induction f with
  | zero =>
    intro g s hf _
    have : s = [] := List.length_eq_zero.mp (Nat.le_zero.mp hf)
    subst this
    cases g <;> rfl
  | succ f ih =>
    intro g s hf hg
    cases s with
    | nil => cases g <;> rfl
    | cons c cs =>
      cases g with
      | zero => simp at hg
      | succ g =>
        simp only [replaceUinF]
        cases hm : matchUinKeyAt key (c :: cs) with
        | some rest =>
          have hlen := matchUinKeyAt_length hm
          simp only [List.length_cons] at hf hg hlen
          show alia ++ replaceUinF key alia f rest = alia ++ replaceUinF key alia g rest
          rw [ih g rest (by omega) (by omega)]
        | none =>
          simp only [List.length_cons] at hf hg
          show c :: replaceUinF key alia f cs = c :: replaceUinF key alia g cs
          rw [ih g cs (by omega) (by omega)]

theorem replaceUserF_congr (key alia : List Char) :
    ∀ (f g : Nat) (s : List Char), s.length ≤ f → s.length ≤ g →
      replaceUserF key alia f s = replaceUserF key alia g s := by
  intro f
  induction f with
  | zero =>
    intro g s hf _
    have : s = [] := List.length_eq_zero.mp (Nat.le_zero.mp hf)
    subst this
    cases g <;> rfl
  | succ f ih =>
    intro g s hf hg
    cases s with
    | nil => cases g <;> rfl
    | cons c cs =>
      cases g with
      | zero => simp at hg
      | succ g =>
        simp only [replaceUserF]
        cases hm : matchUserKeyAt key (c :: cs) with
        | some rest =>
          have hlen := matchUserKeyAt_length hm
          simp only [List.length_cons] at hf hg hlen
          show alia ++ replaceUserF key alia f rest = alia ++ replaceUserF key alia g rest
          rw [ih g rest (by omega) (by omega)]
        | none =>
          simp only [List.length_cons] at hf hg
          show c :: replaceUserF key alia f cs = c :: replaceUserF key alia g cs
          rw [ih g cs (by omega) (by omega)]



/-- Literal key-character match, following the claim's words: replacement
targets *literal* occurrences, so every key character, `.` included, denotes
itself (case-insensitively when `ci` is set). -/
def litCharMatch (ci : Bool) (p c : Char) : Bool :=
  if ci then p.toLower = c.toLower else p = c

def matchKeyLit (ci : Bool) : List Char → List Char → Option (List Char × List Char)
  | [], s => some ([], s)
  | _ :: _, [] => none
  | p :: ps, c :: cs =>
    if litCharMatch ci p c then
      match matchKeyLit ci ps cs with
      | some (con, rest) => some (c :: con, rest)
      | none => none
    else none

/-- Claim-side matcher for a literal `@[AnyName](key)` occurrence. -/
def matchUinKeyAtLit (key : List Char) : List Char → Option (List Char)
  | '@' :: '[' :: cs =>
    match splitAtRB cs with
    | some (name, rest1) =>
      if name = [] then none
      else
        match rest1 with
        | '(' :: cs2 =>
          match matchKeyLit false key cs2 with
          | some (_, rest2) =>
            match rest2 with
            | ')' :: rest => some rest
            | _ => none
          | none => none
        | _ => none
    | none => none
  | _ => none

/-- Claim-side matcher for a literal, word-bounded, case-insensitive `@key`
occurrence. -/
def matchUserKeyAtLit (key : List Char) : List Char → Option (List Char)
  | '@' :: cs =>
    match matchKeyLit true key cs with
    | some (con, rest) =>
      if boundaryOK (con.getLastD '@') rest then some rest else none
    | none => none
  | _ => none

def replaceUinLitF (key alia : List Char) : Nat → List Char → List Char
  | _, [] => []
  | 0, s => s
  | f + 1, c :: cs =>
    match matchUinKeyAtLit key (c :: cs) with
    | some rest => alia ++ replaceUinLitF key alia f rest
    | none => c :: replaceUinLitF key alia f cs

def replaceUinLit (key alia s : List Char) : List Char := replaceUinLitF key alia s.length s

def replaceUserLitF (key alia : List Char) : Nat → List Char → List Char
  | _, [] => []
  | 0, s => s
  | f + 1, c :: cs =>
    match matchUserKeyAtLit key (c :: cs) with
    | some rest => alia ++ replaceUserLitF key alia f rest
    | none => c :: replaceUserLitF key alia f cs

def replaceUserLit (key alia s : List Char) : List Char := replaceUserLitF key alia s.length s

/-- `anonymizeLiteral`, written from the claim's words as the refinement
target of `anonymizeContent`: in alias-assignment order, replace every
*literal* occurrence of the entry's structured pattern and of its word-bounded
case-insensitive `@handle` pattern with the entry's label, leaving all other
text verbatim. -/
def anonymizeLiteral (content : List Char) (aliasMap : List (List Char × List Char)) :
    List Char :=
  aliasMap.foldl (fun acc ka => replaceUserLit ka.1 ka.2 (replaceUinLit ka.1 ka.2 acc)) content

theorem matchKey_eq_lit {ci : Bool} : ∀ {ps : List Char}, '.' ∉ ps →
    ∀ s, matchKey ci ps s = matchKeyLit ci ps s := by
  intro ps
  induction ps with
  | nil => intro _ s; rfl
  | cons p ps ih =>
    intro hnd s
    have hp : p ≠ '.' := fun h => hnd (h ▸ List.mem_cons_self _ _)
    have hps : '.' ∉ ps := fun h => hnd (List.mem_cons_of_mem _ h)
    cases s with
    | nil => rfl
    | cons c cs =>
      simp only [matchKey, matchKeyLit, patCharMatch, if_neg hp, ih hps]
      rfl

theorem matchUinKeyAt_eq_lit {key : List Char} (hnd : '.' ∉ key) :
    ∀ s, matchUinKeyAt key s = matchUinKeyAtLit key s := by
  intro s
  rw [matchUinKeyAt.eq_def, matchUinKeyAtLit.eq_def]
  split
  next cs =>
    cases hsplit : splitAtRB cs with
    | none => rfl
    | some p =>
      obtain ⟨nm, rest1⟩ := p
      simp only [matchKey_eq_lit hnd]
  next => rfl

theorem matchUserKeyAt_eq_lit {key : List Char} (hnd : '.' ∉ key) :
    ∀ s, matchUserKeyAt key s = matchUserKeyAtLit key s := by
  intro s
  rw [matchUserKeyAt.eq_def, matchUserKeyAtLit.eq_def]
  split
  next cs => rw [matchKey_eq_lit hnd]
  next => rfl

theorem replaceUinF_eq_lit {key alia : List Char} (hnd : '.' ∉ key) :
    ∀ (f : Nat) (s : List Char), replaceUinF key alia f s = replaceUinLitF key alia f s := by
  intro f
  induction f with
  | zero => intro s; cases s <;> rfl
  | succ f ih =>
    intro s
    cases s with
    | nil => rfl
    | cons c cs =>
      simp only [replaceUinF, replaceUinLitF, matchUinKeyAt_eq_lit hnd]
      cases matchUinKeyAtLit key (c :: cs) with
      | some rest =>
        show alia ++ replaceUinF key alia f rest = alia ++ replaceUinLitF key alia f rest
        rw [ih rest]
      | none =>
        show c :: replaceUinF key alia f cs = c :: replaceUinLitF key alia f cs
        rw [ih cs]

theorem replaceUserF_eq_lit {key alia : List Char} (hnd : '.' ∉ key) :
    ∀ (f : Nat) (s : List Char), replaceUserF key alia f s = replaceUserLitF key alia f s := by
  intro f
  induction f with
  | zero => intro s; cases s <;> rfl
  | succ f ih =>
    intro s
    cases s with
    | nil => rfl
    | cons c cs =>
      simp only [replaceUserF, replaceUserLitF, matchUserKeyAt_eq_lit hnd]
      cases matchUserKeyAtLit key (c :: cs) with
      | some rest =>
        show alia ++ replaceUserF key alia f rest = alia ++ replaceUserLitF key alia f rest
        rw [ih rest]
      | none =>
        show c :: replaceUserF key alia f cs = c :: replaceUserLitF key alia f cs
        rw [ih cs]


/-- Does the structured pattern of this key match anywhere in the text? -/
def hasUinKeyMatch (key : List Char) : List Char → Bool
  | [] => false
  | c :: cs => (matchUinKeyAt key (c :: cs)).isSome || hasUinKeyMatch key cs

/-- Does the word-bounded case-insensitive handle pattern of this key match
anywhere in the text? -/
def hasUserKeyMatch (key : List Char) : List Char → Bool
  | [] => false
  | c :: cs => (matchUserKeyAt key (c :: cs)).isSome || hasUserKeyMatch key cs

theorem replaceUinF_of_no_match {key alia : List Char} :
    ∀ (f : Nat) (s : List Char), hasUinKeyMatch key s = false →
      replaceUinF key alia f s = s := by
  intro f
  induction f with
  | zero => intro s _; cases s <;> rfl
  | succ f ih =>
    intro s hno
    cases s with
    | nil => rfl
    | cons c cs =>
      simp only [hasUinKeyMatch, Bool.or_eq_false_iff] at hno
      obtain ⟨h1, h2⟩ := hno
      simp only [replaceUinF]
      cases hm : matchUinKeyAt key (c :: cs) with
      | some rest => rw [hm] at h1; simp at h1
      | none =>
        show c :: replaceUinF key alia f cs = c :: cs
        rw [ih cs h2]

theorem replaceUserF_of_no_match {key alia : List Char} :
    ∀ (f : Nat) (s : List Char), hasUserKeyMatch key s = false →
      replaceUserF key alia f s = s := by
  intro f
  induction f with
  | zero => intro s _; cases s <;> rfl
  | succ f ih =>
    intro s hno
    cases s with
    | nil => rfl
    | cons c cs =>
      simp only [hasUserKeyMatch, Bool.or_eq_false_iff] at hno
      obtain ⟨h1, h2⟩ := hno
      simp only [replaceUserF]
      cases hm : matchUserKeyAt key (c :: cs) with
      | some rest => rw [hm] at h1; simp at h1
      | none =>
        show c :: replaceUserF key alia f cs = c :: cs
        rw [ih cs h2]

theorem anonymizeContent_of_no_match :
    ∀ (m : List (List Char × List Char)) (u : List Char),
      (∀ ka ∈ m, hasUinKeyMatch ka.1 u = false ∧ hasUserKeyMatch ka.1 u = false) →
      anonymizeContent u m = u := by
  intro m
  induction m with
  | nil => intro u _; rfl
  | cons ka m ih =>
    intro u hno
    obtain ⟨h1, h2⟩ := hno ka (List.mem_cons_self _ _)
    show anonymizeContent (replaceUser ka.1 ka.2 (replaceUin ka.1 ka.2 u)) m = u
    rw [replaceUin, replaceUinF_of_no_match _ _ h1, replaceUser,
      replaceUserF_of_no_match _ _ h2]
    exact ih u fun kb hkb => hno kb (List.mem_cons_of_mem _ hkb)


theorem anonymizeContent_eq_lit :
    ∀ (m : List (List Char × List Char)) (t : List Char),
      (∀ ka ∈ m, '.' ∉ ka.1) → anonymizeContent t m = anonymizeLiteral t m := by
  intro m
  induction m with
  | nil => intro t _; rfl
  | cons ka m ih =>
    intro t hnd
    have hka : '.' ∉ ka.1 := hnd ka (List.mem_cons_self _ _)
    have hm : ∀ kb ∈ m, '.' ∉ kb.1 := fun kb hkb => hnd kb (List.mem_cons_of_mem _ hkb)
    show anonymizeContent (replaceUser ka.1 ka.2 (replaceUin ka.1 ka.2 t)) m =
      anonymizeLiteral (replaceUserLit ka.1 ka.2 (replaceUinLit ka.1 ka.2 t)) m
    rw [replaceUin, replaceUinF_eq_lit hka, replaceUser, replaceUserF_eq_lit hka]
    exact ih _ hm

/-- Claim C5 (counterexample): with the assigned key `a.b` — a legal handle —
the text `"@axb"` contains no literal occurrence of the key's reference
pattern (the claim-side literal replacement leaves it verbatim), yet
`anonymizeContent` rewrites it to the alias, because the interpolated `.` is
interpreted as a regex wildcard. -/
theorem claim_C5_counterexample :
    anonymizeLiteral "@axb".toList [("a.b".toList, "SUBJECT_1".toList)] = "@axb".toList ∧
    anonymizeContent "@axb".toList [("a.b".toList, "SUBJECT_1".toList)] =
      "SUBJECT_1".toList := by
  constructor
  · decide
  · decide

/-- Claim C5 (amended): provided no assigned key contains the character `.`
(which the code interpolates into the regex as a wildcard), `anonymizeContent`
coincides with the literal replacement semantics of the claim: in
alias-assignment order it replaces every literal occurrence of each key's
structured pattern and word-bounded case-insensitive `@handle` pattern — not
just the first — and leaves all other text, unresolved references included,
verbatim; on the empty alias assignment it returns the input unchanged. -/
theorem claim_C5_amended (t : List Char) (m : List (List Char × List Char))
    (hnd : ∀ ka ∈ m, '.' ∉ ka.1) :
    anonymizeContent t m = anonymizeLiteral t m ∧ anonymizeContent t [] = t :=
  ⟨anonymizeContent_eq_lit m t hnd, rfl⟩

/-- Witness for the amended C5 at a concrete input. -/
theorem claim_C5_witness :
    anonymizeContent "@[X](7) met @bob today".toList
        [("7".toList, "SUBJECT_1".toList), ("bob".toList, "SUBJECT_2".toList)] =
      anonymizeLiteral "@[X](7) met @bob today".toList
        [("7".toList, "SUBJECT_1".toList), ("bob".toList, "SUBJECT_2".toList)] ∧
    anonymizeContent "@[X](7) met @bob today".toList [] = "@[X](7) met @bob today".toList :=
  claim_C5_amended _ _ (by decide)

/-- Claim C6 (counterexample): anonymisation is not idempotent.  For the text
`"@subject_2 x @@jane"` and the alias assignment produced for it
(`subject_2 ↦ SUBJECT_1`, `jane ↦ SUBJECT_2`), the first pass yields
`"SUBJECT_1 x @SUBJECT_2"`, and a second pass rewrites the emitted
`@SUBJECT_2` — which the key `subject_2` matches case-insensitively — to
`"SUBJECT_1 x SUBJECT_1"`. -/
theorem claim_C6_counterexample :
    anonymizeContent
        (anonymizeContent "@subject_2 x @@jane".toList
          [("subject_2".toList, "SUBJECT_1".toList), ("jane".toList, "SUBJECT_2".toList)])
        [("subject_2".toList, "SUBJECT_1".toList), ("jane".toList, "SUBJECT_2".toList)] ≠
      anonymizeContent "@subject_2 x @@jane".toList
        [("subject_2".toList, "SUBJECT_1".toList), ("jane".toList, "SUBJECT_2".toList)] := by
  decide

/-- Claim C6 (amended): a second `anonymizeContent` with the same alias
assignment is a no-op provided the premise the specification gives for it
actually holds — that no assigned key's reference pattern still matches the
once-anonymised text.  (The counterexample shows this premise can fail, e.g.
when a key matches an emitted placeholder preceded by a leftover `@`.) -/
theorem claim_C6_amended (t : List Char) (m : List (List Char × List Char))
    (hno : ∀ ka ∈ m, hasUinKeyMatch ka.1 (anonymizeContent t m) = false ∧
      hasUserKeyMatch ka.1 (anonymizeContent t m) = false) :
    anonymizeContent (anonymizeContent t m) m = anonymizeContent t m :=
  anonymizeContent_of_no_match m (anonymizeContent t m) hno

/-- Witness for the amended C6 at a concrete input. -/
theorem claim_C6_witness :
    anonymizeContent
        (anonymizeContent "@jane was there".toList [("jane".toList, "SUBJECT_1".toList)])
        [("jane".toList, "SUBJECT_1".toList)] =
      anonymizeContent "@jane was there".toList [("jane".toList, "SUBJECT_1".toList)] :=
  claim_C6_amended _ _ (by decide)


/-- Claim C10 (confirmed): because the plain-handle pass scans the input with
structured spans deleted rather than masked, `extractMentions` can output a
handle that never occurs as `@handle` in the original text: in
`"@@[X](1)foo"` the leading `@` and the characters after the removed span
join into the extracted handle `foo`, yet `@foo` is not a substring of the
input. -/
theorem claim_C10 :
    extractMentions "@@[X](1)foo".toList =
      { uins := ["1".toList], usernames := ["foo".toList] } ∧
    ¬ ("@foo".toList <:+: "@@[X](1)foo".toList) := by
  constructor
  · decide
  · decide


/-- Decimal digit character for `d < 10` (template-literal stringification). -/
def digitChar (d : Nat) : Char := Char.ofNat (48 + d)

def charDigitVal (c : Char) : Nat := c.toNat - 48

/-- Little-endian decimal digits; the fuel argument bounds the recursion. -/
def natDigitsAux : Nat → Nat → List Char
  | 0, _ => []
  | _ + 1, 0 => []
  | f + 1, n + 1 => digitChar ((n + 1) % 10) :: natDigitsAux f ((n + 1) / 10)

/-- Decimal representation of a natural number, as JS template literals
stringify counters. -/
def natDigits (n : Nat) : List Char :=
  if n = 0 then ['0'] else (natDigitsAux n n).reverse

/-- Value of a little-endian digit list. -/
def digitsVal : List Char → Nat
  | [] => 0
  | c :: cs => charDigitVal c + 10 * digitsVal cs

theorem charDigitVal_digitChar {d : Nat} (h : d < 10) : charDigitVal (digitChar d) = d := by
  interval_cases d <;> decide

theorem digitsVal_natDigitsAux : ∀ (f n : Nat), n ≤ f → digitsVal (natDigitsAux f n) = n := by
  intro f
  induction f with
  | zero =>
    intro n hn
    have : n = 0 := Nat.le_zero.mp hn
    subst this
    rfl
  | succ f ih =>
    intro n hn
    cases n with
    | zero => rfl
    | succ n =>
      have hdiv : (n + 1) / 10 ≤ f := by
        have h1 : (n + 1) / 10 < n + 1 := Nat.div_lt_self (Nat.succ_pos n) (by omega)
        omega
      simp only [natDigitsAux, digitsVal, ih _ hdiv,
        charDigitVal_digitChar (Nat.mod_lt _ (by omega))]
      omega

theorem digitsVal_reverse_natDigits (n : Nat) : digitsVal (natDigits n).reverse = n := by
  unfold natDigits
  by_cases hn : n = 0
  · subst hn
    decide
  · rw [if_neg hn]
    simp only [List.reverse_reverse]
    exact digitsVal_natDigitsAux n n (Nat.le_refl _)

theorem natDigits_inj : ∀ {a b : Nat}, natDigits a = natDigits b → a = b := by
  intro a b h
  have hv : digitsVal (natDigits a).reverse = digitsVal (natDigits b).reverse := by rw [h]
  rw [digitsVal_reverse_natDigits a, digitsVal_reverse_natDigits b] at hv
  exact hv

/-- The alias label `SUBJECT_<n>` built by the controller. -/
def subjectLabel (n : Nat) : List Char := "SUBJECT_".toList ++ natDigits n

theorem subjectLabel_inj {a b : Nat} (h : subjectLabel a = subjectLabel b) : a = b := by
  unfold subjectLabel at h
  exact natDigits_inj (List.append_cancel_left h)


/-- JS `Map.prototype.set`: overwrite in place when the key exists, append
otherwise (iteration order is insertion order). -/
def mapSet (m : List (List Char × List Char)) (k v : List Char) :
    List (List Char × List Char) :=
  if m.any (fun p => p.1 = k) then
    m.map (fun p => if p.1 = k then (k, v) else p)
  else m ++ [(k, v)]

/-- Keys labelled `SUBJECT_<n>`, `SUBJECT_<n+1>`, ... in order. -/
def labelList : List (List Char) → Nat → List (List Char × List Char)
  | [], _ => []
  | k :: ks, n => (k, subjectLabel n) :: labelList ks (n + 1)

theorem labelList_append (a b : List (List Char)) :
    ∀ n, labelList (a ++ b) n = labelList a n ++ labelList b (n + a.length) := by
  induction a with
  | nil => intro n; simp [labelList]
  | cons k ks ih =>
    intro n
    show (k, subjectLabel n) :: labelList (ks ++ b) (n + 1) =
      (k, subjectLabel n) :: (labelList ks (n + 1) ++ labelList b (n + (ks.length + 1)))
    rw [ih (n + 1)]
    have h : n + 1 + ks.length = n + (ks.length + 1) := by omega
    rw [h]

theorem mem_labelList {k a : List Char} :
    ∀ {ks : List (List Char)} {n : Nat}, (k, a) ∈ labelList ks n →
      ∃ i, ∃ h : i < ks.length, ks.get ⟨i, h⟩ = k ∧ a = subjectLabel (n + i) := by
  intro ks
  induction ks with
  | nil => intro n h; simp [labelList] at h
  | cons k₀ ks ih =>
    intro n h
    rw [labelList] at h
    rcases List.mem_cons.mp h with h | h
    · simp only [Prod.mk.injEq] at h
      obtain ⟨rfl, rfl⟩ := h
      exact ⟨0, by simp, rfl, by simp⟩
    · obtain ⟨i, hi, hk, ha⟩ := ih h
      refine ⟨i + 1, by simpa using hi, by simpa using hk, ?_⟩
      rw [ha]
      have h2 : n + 1 + i = n + (i + 1) := by omega
      rw [h2]

theorem labelList_keys (ks : List (List Char)) :
    ∀ n, (labelList ks n).map Prod.fst = ks := by
  induction ks with
  | nil => intro n; rfl
  | cons k ks ih =>
    intro n
    simp only [labelList, List.map_cons, ih (n + 1)]

theorem labelList_map_snd (ks : List (List Char)) :
    ∀ n, (labelList ks n).map Prod.snd =
      (List.range ks.length).map (fun i => subjectLabel (n + i)) := by
  induction ks with
  | nil => intro n; simp [labelList]
  | cons k ks ih =>
    intro n
    simp only [labelList, List.map_cons, List.length_cons, List.range_succ_eq_map,
      List.map_map, ih (n + 1)]
    congr 1
    apply List.map_congr_left
    intro i hi
    simp only [Function.comp_apply]
    exact congrArg subjectLabel (by omega)


/-- Result of one storage call: either the collaborator answers, or it fails
(a supabase `error`, or a null `data` where the code checks for it). -/
inductive LookupRes (α : Type) where
  | ok (a : α)
  | fault
deriving DecidableEq

/-- The row inserted into the `reports` table by `submitReport`. -/
structure ReportRecord where
  victim_uin : List Char
  subject_uins : List (List Char)
  content : List Char
  incident_type : List Char
  interim_relief : List (List Char)
  organization_id : List Char
  case_token : List Char
  status : List Char
deriving DecidableEq

/-- The columns `insert(...).select('id, case_token, created_at')` returns. -/
structure InsertMeta where
  id : List Char
  case_token : List Char
  created_at : List Char
deriving DecidableEq

/-- The storage collaborator as `submitReport` uses it: the reporter-identity
read, the structured-candidate directory verification, the plain-handle
username lookup, and the report insert. -/
structure Store where
  identityByHash : List Char → LookupRes (Option (List Char))
  directoryVerify : List (List Char) → LookupRes (List (List Char))
  usersByUsername : List (List Char) → LookupRes (List (List Char × List Char))
  insertReport : ReportRecord → LookupRes InsertMeta

/-- The request body of `POST /api/reports`. -/
structure SubmitRequest where
  email : List Char
  content : List Char
  incident_type : List Char
  interim_relief : Option (List (List Char))
  organization_id : List Char

/-- The HTTP response `submitReport` sends. -/
inductive SubmitOutcome where
  | badRequest (msg : List Char)
  | notFound (msg : List Char)
  | internalError (msg : List Char)
  | created (msg case_token created_at : List Char)
deriving DecidableEq

/-- The observable result of one submission: the response, and the row passed
to the insert call when execution reached it. -/
structure SubmitResult where
  outcome : SubmitOutcome
  attempted : Option ReportRecord
deriving DecidableEq

def missingFieldsMsg : List Char := "Missing required fields".toList

def invalidTypeMsg : List Char := "Invalid incident type".toList

def userNotFoundMsg : List Char := "User not found. Please register first.".toList

def validateUsersMsg : List Char := "Failed to validate mentioned users".toList

def submitFailMsg : List Char := "Failed to submit report".toList

def submitOkMsg : List Char := "Report submitted successfully".toList

/-- The required-field and incident-type validation block of `submitReport`
(`!field` in JS is emptiness for these string fields). -/
def validateReq (req : SubmitRequest) : Option (List Char) :=
  if req.email = [] ∨ req.content = [] ∨ req.incident_type = [] ∨
      req.organization_id = [] then
    some missingFieldsMsg
  else if req.incident_type ≠ "physical".toList ∧ req.incident_type ≠ "verbal".toList ∧
      req.incident_type ≠ "psychological".toList then
    some invalidTypeMsg
  else none

/-- The structured-candidate block of `submitReport`: skipped when there are
no structured mentions; otherwise the directory is queried (a fault there is
fatal) and every mention whose id the directory returned is given the next
alias and appended to the subject list. -/
def resolveStep1 (store : Store) (mentions : MentionResult) :
    LookupRes (List (List Char × List Char) × List (List Char) × Nat) :=
  if 0 < mentions.uins.length then
    match store.directoryVerify mentions.uins with
    | .fault => .fault
    | .ok validUins =>
      .ok (mentions.uins.foldl
        (fun acc uin =>
          if validUins.contains uin then
            (mapSet acc.1 uin (subjectLabel acc.2.2), acc.2.1 ++ [uin], acc.2.2 + 1)
          else acc)
        ([], [], 1))
  else .ok ([], [], 1)

/-- The plain-handle block of `submitReport`: skipped when there are no plain
mentions; a lookup fault is logged and skipped; otherwise every returned row
is given the next alias (keyed by its username) and its uin is appended to
the subject list. -/
def resolveStep2 (store : Store) (mentions : MentionResult)
    (acc1 : List (List Char × List Char) × List (List Char) × Nat) :
    List (List Char × List Char) × List (List Char) × Nat :=
  if 0 < mentions.usernames.length then
    match store.usersByUsername mentions.usernames with
    | .fault => acc1
    | .ok rows =>
      if 0 < rows.length then
        rows.foldl
          (fun acc row =>
            (mapSet acc.1 row.1 (subjectLabel acc.2.2), acc.2.1 ++ [row.2], acc.2.2 + 1))
          acc1
      else acc1
  else acc1

/-- The two mention-resolution blocks of `submitReport` composed: alias map
and subject list, or the fatal directory fault. -/
def resolvePhase (store : Store) (mentions : MentionResult) :
    LookupRes (List (List Char × List Char) × List (List Char)) :=
  match resolveStep1 store mentions with
  | .fault => .fault
  | .ok acc1 =>
    .ok ((resolveStep2 store mentions acc1).1, (resolveStep2 store mentions acc1).2.1)

/-- The row `submitReport` inserts. -/
def buildRecord (victim : List Char) (subjects : List (List Char))
    (finalContent : List Char) (req : SubmitRequest) (tok : List Char) : ReportRecord :=
  { victim_uin := victim
  , subject_uins := subjects
  , content := finalContent
  , incident_type := req.incident_type
  , interim_relief := req.interim_relief.getD []
  , organization_id := req.organization_id
  , case_token := tok
  , status := "pending".toList }

/-- `submitReport` from `reportController.ts`, over an explicit storage
collaborator, reporter-address hash function and generated case token.  The
best-effort timeline-alert call after the insert is external to the
repository and cannot change the result, so it is not modelled. -/
def submitReport (hash : List Char → List Char) (genToken : List Char)
    (store : Store) (req : SubmitRequest) : SubmitResult :=
  match validateReq req with
  | some msg => ⟨.badRequest msg, none⟩
  | none =>
    match store.identityByHash (hash req.email) with
    | .fault => ⟨.notFound userNotFoundMsg, none⟩
    | .ok none => ⟨.notFound userNotFoundMsg, none⟩
    | .ok (some victim_uin) =>
      match resolvePhase store (extractMentions req.content) with
      | .fault => ⟨.internalError validateUsersMsg, none⟩
      | .ok (aliasMap, subject_uins) =>
        match store.insertReport (buildRecord victim_uin subject_uins
            (if 0 < aliasMap.length then anonymizeContent req.content aliasMap
             else req.content) req genToken) with
        | .fault => ⟨.internalError submitFailMsg,
            some (buildRecord victim_uin subject_uins
              (if 0 < aliasMap.length then anonymizeContent req.content aliasMap
               else req.content) req genToken)⟩
        | .ok meta => ⟨.created submitOkMsg meta.case_token meta.created_at,
            some (buildRecord victim_uin subject_uins
              (if 0 < aliasMap.length then anonymizeContent req.content aliasMap
               else req.content) req genToken)⟩

/-- One row of the `reports` table as `getReportStatus` selects it. -/
structure StatusRow where
  status : List Char
  incident_type : List Char
  created_at : List Char
  closed_at : Option (List Char)
deriving DecidableEq

/-- Storage interface of the status query. -/
structure StatusStore where
  getReportByToken : List Char → LookupRes (Option StatusRow)

inductive StatusOutcome where
  | badRequest (msg : List Char)
  | notFound (msg : List Char)
  | ok (row : StatusRow)
deriving DecidableEq

def invalidTokenMsg : List Char := "Invalid case token format".toList

def reportNotFoundMsg : List Char := "Report not found".toList

/-- `getReportStatus` from `reportController.ts`, parametric in the
`isValidCaseToken` format check (a collaborator outside the shown sources).
The boolean in the result records whether the storage collaborator was
queried at all. -/
def getReportStatus (isValid : List Char → Bool) (store : StatusStore)
    (token : List Char) : StatusOutcome × Bool :=
  if token.isEmpty || !isValid token then
    (.badRequest invalidTokenMsg, false)
  else
    match store.getReportByToken token with
    | .fault => (.notFound reportNotFoundMsg, true)
    | .ok none => (.notFound reportNotFoundMsg, true)
    | .ok (some row) => (.ok row, true)



/-- Claim C7 (confirmed): when the reporter's address has no registered
identity, `submitReport` responds with the not-found rejection — a condition
distinct from the validation-error responses — and never reaches the insert
call (no report row is passed to storage; the model contains no identity
write at all, matching the controller, so no reporter is auto-registered). -/
theorem claim_C7 (hash : List Char → List Char) (genToken : List Char)
    (store : Store) (req : SubmitRequest)
    (hv : validateReq req = none)
    (hid : store.identityByHash (hash req.email) = .ok none) :
    submitReport hash genToken store req = ⟨.notFound userNotFoundMsg, none⟩ ∧
    ∀ msg, (SubmitOutcome.notFound userNotFoundMsg) ≠ SubmitOutcome.badRequest msg := by
  constructor
  · unfold submitReport
    rw [hv, hid]
  · intro msg h
    cases h

/-- Witness for C7 at a concrete unregistered reporter. -/
theorem claim_C7_witness :
    submitReport (fun e => e) "TOK".toList
        { identityByHash := fun _ => .ok none
        , directoryVerify := fun _ => .ok []
        , usersByUsername := fun _ => .ok []
        , insertReport := fun _ => .ok ⟨"i".toList, "TOK".toList, "T0".toList⟩ }
        { email := "x@y.z".toList, content := "@[A](1) hit me".toList
        , incident_type := "physical".toList, interim_relief := none
        , organization_id := "org".toList } =
      ⟨.notFound userNotFoundMsg, none⟩ :=
  (claim_C7 _ _ _ _ (by decide) rfl).1

/-- Claim C8 (confirmed): `getReportStatus` checks the token format before any
storage query — a syntactically invalid (or empty) token yields the
invalid-format rejection with the storage collaborator never queried — and a
well-formed token with no matching report yields the not-found response, a
constructor distinct from the invalid-format one.  The statement is parametric
in the `isValidCaseToken` format predicate, which lives outside the shown
sources. -/
theorem claim_C8 (isValid : List Char → Bool) (store : StatusStore) (token : List Char) :
    ((token.isEmpty || !isValid token) = true →
      getReportStatus isValid store token = (.badRequest invalidTokenMsg, false)) ∧
    ((token.isEmpty || !isValid token) = false →
      store.getReportByToken token = .ok none →
      getReportStatus isValid store token = (.notFound reportNotFoundMsg, true)) ∧
    (∀ m m' : List Char, StatusOutcome.badRequest m ≠ StatusOutcome.notFound m') := by
  refine ⟨?_, ?_, ?_⟩
  · intro h
    unfold getReportStatus
    rw [h]
    rfl
  · intro h hnone
    unfold getReportStatus
    rw [h, hnone]
    rfl
  · intro m m' h
    cases h

/-- Witness for C8: a malformed token is rejected without any storage call,
and a well-formed unknown token is reported as not found. -/
theorem claim_C8_witness :
    getReportStatus (fun t => t = "SH-1".toList) ⟨fun _ => .ok none⟩ "bad token".toList =
      (.badRequest invalidTokenMsg, false) ∧
    getReportStatus (fun t => t = "SH-1".toList) ⟨fun _ => .ok none⟩ "SH-1".toList =
      (.notFound reportNotFoundMsg, true) :=
  ⟨(claim_C8 _ _ _).1 (by decide), (claim_C8 _ _ _).2.1 (by decide) rfl⟩


/-- Claim C1 (counterexample): the server creates a report for a narrative
with zero mention candidates instead of rejecting it.  With a registered
reporter and a healthy store, `submitReport` on the mention-free content
`"hello world"` answers 201-created and passes a report row to the insert
call — the claim's rejection and "no report record" both fail. -/
theorem claim_C1_counterexample :
    extractMentions "hello world".toList = { uins := [], usernames := [] } ∧
    submitReport (fun e => e) "TOK".toList
        { identityByHash := fun _ => .ok (some "U0".toList)
        , directoryVerify := fun _ => .ok []
        , usersByUsername := fun _ => .ok []
        , insertReport := fun _ => .ok ⟨"i1".toList, "TOK".toList, "T0".toList⟩ }
        { email := "a@b.c".toList, content := "hello world".toList
        , incident_type := "verbal".toList, interim_relief := none
        , organization_id := "org".toList } =
      ⟨.created submitOkMsg "TOK".toList "T0".toList,
        some (buildRecord "U0".toList [] "hello world".toList
          { email := "a@b.c".toList, content := "hello world".toList
          , incident_type := "verbal".toList, interim_relief := none
          , organization_id := "org".toList } "TOK".toList)⟩ := by
  constructor
  · decide
  · decide

/-- Claim C1 (amended): `submitReport` does not enforce a subject
requirement.  For every submission whose narrative yields zero mention
candidates of either format, given a registered reporter and a successful
insert, the request succeeds and a report row with an empty subject list and
the content unchanged is created (the at-least-one-mention check exists only
in the client form, not in this controller). -/
theorem claim_C1_amended (hash : List Char → List Char) (genToken : List Char)
    (store : Store) (req : SubmitRequest) (victim : List Char) (meta : InsertMeta)
    (hv : validateReq req = none)
    (hid : store.identityByHash (hash req.email) = .ok (some victim))
    (hm : extractMentions req.content = { uins := [], usernames := [] })
    (hins : store.insertReport (buildRecord victim [] req.content req genToken) = .ok meta) :
    submitReport hash genToken store req =
      ⟨.created submitOkMsg meta.case_token meta.created_at,
        some (buildRecord victim [] req.content req genToken)⟩ ∧
    (buildRecord victim [] req.content req genToken).subject_uins = [] ∧
    (buildRecord victim [] req.content req genToken).content = req.content := by
  refine ⟨?_, rfl, rfl⟩
  unfold submitReport
  rw [hv, hid, hm]
  have hres : resolvePhase store { uins := [], usernames := [] } = .ok ([], []) := rfl
  rw [hres]
  show (match store.insertReport (buildRecord victim [] req.content req genToken) with
    | .fault => (⟨.internalError submitFailMsg,
        some (buildRecord victim [] req.content req genToken)⟩ : SubmitResult)
    | .ok meta => ⟨.created submitOkMsg meta.case_token meta.created_at,
        some (buildRecord victim [] req.content req genToken)⟩) = _
  rw [hins]

/-- Witness for the amended C1 at a concrete input. -/
theorem claim_C1_witness :
    submitReport (fun e => e) "TK2".toList
        { identityByHash := fun _ => .ok (some "U9".toList)
        , directoryVerify := fun _ => .ok []
        , usersByUsername := fun _ => .ok []
        , insertReport := fun _ => .ok ⟨"i2".toList, "TK2".toList, "T2".toList⟩ }
        { email := "p@q.r".toList, content := "nothing to see".toList
        , incident_type := "psychological".toList, interim_relief := none
        , organization_id := "o2".toList } =
      ⟨.created submitOkMsg "TK2".toList "T2".toList,
        some (buildRecord "U9".toList [] "nothing to see".toList
          { email := "p@q.r".toList, content := "nothing to see".toList
          , incident_type := "psychological".toList, interim_relief := none
          , organization_id := "o2".toList } "TK2".toList)⟩ :=
  (claim_C1_amended _ _ _ _ _ _ (by decide) rfl (by decide) rfl).1


/-- Claim C9 (confirmed): a successful submission response consists of the
fixed success message and exactly the case token and creation timestamp the
storage collaborator returned for the insert — by the shape of the `created`
response, the anonymised content, the subject identities and the reporter
identity are not part of it. -/
theorem claim_C9 (hash : List Char → List Char) (genToken : List Char)
    (store : Store) (req : SubmitRequest) (m ct ts : List Char)
    (h : (submitReport hash genToken store req).outcome = .created m ct ts) :
    m = submitOkMsg ∧
    ∃ r, (submitReport hash genToken store req).attempted = some r ∧
      ∃ i, store.insertReport r = .ok ⟨i, ct, ts⟩ := by
  cases hval : validateReq req with
  | some msg =>
    have hrun : submitReport hash genToken store req = ⟨.badRequest msg, none⟩ := by
      unfold submitReport
      rw [hval]
    rw [hrun] at h
    exact absurd h (by simp)
  | none =>
    cases hid : store.identityByHash (hash req.email) with
    | fault =>
      have hrun : submitReport hash genToken store req =
          ⟨.notFound userNotFoundMsg, none⟩ := by
        unfold submitReport
        rw [hval, hid]
      rw [hrun] at h
      exact absurd h (by simp)
    | ok vo =>
      cases vo with
      | none =>
        have hrun : submitReport hash genToken store req =
            ⟨.notFound userNotFoundMsg, none⟩ := by
          unfold submitReport
          rw [hval, hid]
        rw [hrun] at h
        exact absurd h (by simp)
      | some victim =>
        cases hres : resolvePhase store (extractMentions req.content) with
        | fault =>
          have hrun : submitReport hash genToken store req =
              ⟨.internalError validateUsersMsg, none⟩ := by
            unfold submitReport
            rw [hval, hid, hres]
          rw [hrun] at h
          exact absurd h (by simp)
        | ok p =>
          obtain ⟨am, subs⟩ := p
          cases hins : store.insertReport (buildRecord victim subs
              (if 0 < am.length then anonymizeContent req.content am else req.content)
              req genToken) with
          | fault =>
            have hrun : submitReport hash genToken store req =
                ⟨.internalError submitFailMsg,
                  some (buildRecord victim subs
                    (if 0 < am.length then anonymizeContent req.content am
                     else req.content) req genToken)⟩ := by
              unfold submitReport
              rw [hval, hid, hres]
              show (match store.insertReport (buildRecord victim subs
                  (if 0 < am.length then anonymizeContent req.content am
                   else req.content) req genToken) with
                | .fault => (⟨.internalError submitFailMsg,
                    some (buildRecord victim subs
                      (if 0 < am.length then anonymizeContent req.content am
                       else req.content) req genToken)⟩ : SubmitResult)
                | .ok meta => ⟨.created submitOkMsg meta.case_token meta.created_at,
                    some (buildRecord victim subs
                      (if 0 < am.length then anonymizeContent req.content am
                       else req.content) req genToken)⟩) = _
              rw [hins]
            rw [hrun] at h
            exact absurd h (by simp)
          | ok meta =>
            have hrun : submitReport hash genToken store req =
                ⟨.created submitOkMsg meta.case_token meta.created_at,
                  some (buildRecord victim subs
                    (if 0 < am.length then anonymizeContent req.content am
                     else req.content) req genToken)⟩ := by
              unfold submitReport
              rw [hval, hid, hres]
              show (match store.insertReport (buildRecord victim subs
                  (if 0 < am.length then anonymizeContent req.content am
                   else req.content) req genToken) with
                | .fault => (⟨.internalError submitFailMsg,
                    some (buildRecord victim subs
                      (if 0 < am.length then anonymizeContent req.content am
                       else req.content) req genToken)⟩ : SubmitResult)
                | .ok meta => ⟨.created submitOkMsg meta.case_token meta.created_at,
                    some (buildRecord victim subs
                      (if 0 < am.length then anonymizeContent req.content am
                       else req.content) req genToken)⟩) = _
              rw [hins]
            rw [hrun] at h
            replace h : SubmitOutcome.created submitOkMsg meta.case_token meta.created_at =
                .created m ct ts := h
            simp only [SubmitOutcome.created.injEq] at h
            obtain ⟨h1, h2, h3⟩ := h
            rw [hrun]
            refine ⟨h1.symm, _, rfl, meta.id, ?_⟩
            rw [hins, ← h2, ← h3]

/-- Witness for C9 at a concrete successful run. -/
theorem claim_C9_witness :
    "Report submitted successfully".toList = submitOkMsg ∧
    ∃ r, (submitReport (fun e => e) "TK3".toList
        { identityByHash := fun _ => .ok (some "U3".toList)
        , directoryVerify := fun _ => .ok ["5".toList]
        , usersByUsername := fun _ => .ok []
        , insertReport := fun _ => .ok ⟨"i3".toList, "TK3".toList, "T3".toList⟩ }
        { email := "m@n.o".toList, content := "@[Ann](5) did it".toList
        , incident_type := "verbal".toList, interim_relief := none
        , organization_id := "o3".toList }).attempted = some r ∧
      ∃ i, (fun _ => LookupRes.ok (⟨"i3".toList, "TK3".toList, "T3".toList⟩ : InsertMeta)) r =
        .ok ⟨i, "TK3".toList, "T3".toList⟩ :=
  claim_C9 _ _ _ _ _ _ _ (by decide)


theorem resolvePhase_user_fault (store : Store) (mentions : MentionResult) :
    resolvePhase { store with usersByUsername := fun _ => .fault } mentions =
      resolvePhase { store with usersByUsername := fun _ => .ok [] } mentions := rfl

theorem submitReport_congr (hash : List Char → List Char) (genToken : List Char)
    (s₁ s₂ : Store) (req : SubmitRequest)
    (hid : s₁.identityByHash = s₂.identityByHash)
    (hres : resolvePhase s₁ (extractMentions req.content) =
      resolvePhase s₂ (extractMentions req.content))
    (hins : s₁.insertReport = s₂.insertReport) :
    submitReport hash genToken s₁ req = submitReport hash genToken s₂ req := by
  unfold submitReport
  rw [hid, hres, hins]

/-- Claim C2 (counterexample): a storage fault on the structured-candidate
directory verification — a mention-resolution read — is not degraded to zero
matches: the whole submission fails with the internal validation error and no
report row reaches the insert call, contradicting the claim that only the
reporter-identity read and the persistence write are fatal. -/
theorem claim_C2_counterexample :
    submitReport (fun e => e) "TOK".toList
        { identityByHash := fun _ => .ok (some "U0".toList)
        , directoryVerify := fun _ => .fault
        , usersByUsername := fun _ => .ok []
        , insertReport := fun _ => .ok ⟨"i1".toList, "TOK".toList, "T0".toList⟩ }
        { email := "a@b.c".toList, content := "@[Jane](42) hit me".toList
        , incident_type := "physical".toList, interim_relief := none
        , organization_id := "org".toList } =
      ⟨.internalError validateUsersMsg, none⟩ := by
  decide

/-- Claim C2 (amended): the fault tolerance is asymmetric between the two
mention-resolution reads.  (1) A fault on the plain-handle username lookup is
absorbed: the submission result is identical to the one where the lookup
returns zero matches.  (2) A fault on the structured-candidate directory
verification is fatal: the request fails with the internal validation error
and no insert is attempted.  (3) A fault on the reporter-identity read is
fatal and surfaced as the not-found rejection (conflated with an unregistered
reporter, not an internal error).  (4) A fault on the persistence write is
fatal and surfaced as an internal error, the insert having been attempted. -/
theorem claim_C2_amended (hash : List Char → List Char) (genToken : List Char)
    (store : Store) (req : SubmitRequest) (victim : List Char) :
    (submitReport hash genToken { store with usersByUsername := fun _ => .fault } req =
      submitReport hash genToken { store with usersByUsername := fun _ => .ok [] } req) ∧
    (validateReq req = none →
      store.identityByHash (hash req.email) = .ok (some victim) →
      store.directoryVerify (extractMentions req.content).uins = .fault →
      0 < (extractMentions req.content).uins.length →
      submitReport hash genToken store req = ⟨.internalError validateUsersMsg, none⟩) ∧
    (validateReq req = none →
      store.identityByHash (hash req.email) = .fault →
      submitReport hash genToken store req = ⟨.notFound userNotFoundMsg, none⟩) ∧
    (∀ am subs, validateReq req = none →
      store.identityByHash (hash req.email) = .ok (some victim) →
      resolvePhase store (extractMentions req.content) = .ok (am, subs) →
      store.insertReport (buildRecord victim subs
        (if 0 < am.length then anonymizeContent req.content am else req.content)
        req genToken) = .fault →
      submitReport hash genToken store req =
        ⟨.internalError submitFailMsg,
          some (buildRecord victim subs
            (if 0 < am.length then anonymizeContent req.content am else req.content)
            req genToken)⟩) := by
  refine ⟨?_, ?_, ?_, ?_⟩
  · exact submitReport_congr hash genToken _ _ req rfl
      (resolvePhase_user_fault store (extractMentions req.content)) rfl
  · intro hv hid hdir hpos
    have hres : resolvePhase store (extractMentions req.content) = .fault := by
      unfold resolvePhase resolveStep1
      rw [if_pos hpos, hdir]
    unfold submitReport
    rw [hv, hid, hres]
  · intro hv hid
    unfold submitReport
    rw [hv, hid]
  · intro am subs hv hid hres hins
    unfold submitReport
    rw [hv, hid, hres]
    show (match store.insertReport (buildRecord victim subs
        (if 0 < am.length then anonymizeContent req.content am
         else req.content) req genToken) with
      | .fault => (⟨.internalError submitFailMsg,
          some (buildRecord victim subs
            (if 0 < am.length then anonymizeContent req.content am
             else req.content) req genToken)⟩ : SubmitResult)
      | .ok meta => ⟨.created submitOkMsg meta.case_token meta.created_at,
          some (buildRecord victim subs
            (if 0 < am.length then anonymizeContent req.content am
             else req.content) req genToken)⟩) = _
    rw [hins]

/-- Witness for the amended C2: a concrete run in which the username lookup
faults and the submission nevertheless succeeds exactly as with zero matches,
plus concrete runs of the three fatal-fault branches. -/
theorem claim_C2_witness :
    (submitReport (fun e => e) "TOK".toList
        { identityByHash := fun _ => .ok (some "U0".toList)
        , directoryVerify := fun _ => .ok []
        , usersByUsername := fun _ => .fault
        , insertReport := fun _ => .ok ⟨"i1".toList, "TOK".toList, "T0".toList⟩ }
        { email := "a@b.c".toList, content := "@carol was there".toList
        , incident_type := "verbal".toList, interim_relief := none
        , organization_id := "org".toList } =
      submitReport (fun e => e) "TOK".toList
        { identityByHash := fun _ => .ok (some "U0".toList)
        , directoryVerify := fun _ => .ok []
        , usersByUsername := fun _ => .ok []
        , insertReport := fun _ => .ok ⟨"i1".toList, "TOK".toList, "T0".toList⟩ }
        { email := "a@b.c".toList, content := "@carol was there".toList
        , incident_type := "verbal".toList, interim_relief := none
        , organization_id := "org".toList }) ∧
    (submitReport (fun e => e) "TOK".toList
        { identityByHash := fun _ => .fault
        , directoryVerify := fun _ => .ok []
        , usersByUsername := fun _ => .ok []
        , insertReport := fun _ => .ok ⟨"i1".toList, "TOK".toList, "T0".toList⟩ }
        { email := "a@b.c".toList, content := "@carol was there".toList
        , incident_type := "verbal".toList, interim_relief := none
        , organization_id := "org".toList } =
      ⟨.notFound userNotFoundMsg, none⟩) := by
  constructor
  · have h := (claim_C2_amended (fun e => e) "TOK".toList
      { identityByHash := fun _ => .ok (some "U0".toList)
      , directoryVerify := fun _ => .ok []
      , usersByUsername := fun _ => .ok []
      , insertReport := fun _ => .ok ⟨"i1".toList, "TOK".toList, "T0".toList⟩ }
      { email := "a@b.c".toList, content := "@carol was there".toList
      , incident_type := "verbal".toList, interim_relief := none
      , organization_id := "org".toList } [] ).1
    exact h
  · exact (claim_C2_amended (fun e => e) "TOK".toList
      { identityByHash := fun _ => .fault
      , directoryVerify := fun _ => .ok []
      , usersByUsername := fun _ => .ok []
      , insertReport := fun _ => .ok ⟨"i1".toList, "TOK".toList, "T0".toList⟩ }
      { email := "a@b.c".toList, content := "@carol was there".toList
      , incident_type := "verbal".toList, interim_relief := none
      , organization_id := "org".toList } [] ).2.2.1 (by decide) rfl


theorem mapSet_append {m : List (List Char × List Char)} {k v : List Char}
    (h : ∀ p ∈ m, p.1 ≠ k) : mapSet m k v = m ++ [(k, v)] := by
  unfold mapSet
  rw [if_neg]
  intro hc
  simp only [List.any_eq_true, decide_eq_true_eq] at hc
  obtain ⟨p, hp, hpk⟩ := hc
  exact h p hp hpk

theorem uinFold_eq :
    ∀ (uins : List (List Char)) (V : List (List Char))
      (m₀ : List (List Char × List Char)) (subs₀ : List (List Char)) (n₀ : Nat),
      uins.Nodup → (∀ u ∈ uins, ∀ p ∈ m₀, p.1 ≠ u) →
      uins.foldl
        (fun acc uin =>
          if V.contains uin then
            (mapSet acc.1 uin (subjectLabel acc.2.2), acc.2.1 ++ [uin], acc.2.2 + 1)
          else acc) (m₀, subs₀, n₀) =
        (m₀ ++ labelList (uins.filter (fun u => V.contains u)) n₀,
         subs₀ ++ uins.filter (fun u => V.contains u),
         n₀ + (uins.filter (fun u => V.contains u)).length) := by
  intro uins
  induction uins with
  | nil => intro V m₀ subs₀ n₀ _ _; simp [labelList]
  | cons u us ih =>
    intro V m₀ subs₀ n₀ hnd hdis
    have hndus : us.Nodup := (List.nodup_cons.mp hnd).2
    have hu_not : u ∉ us := (List.nodup_cons.mp hnd).1
    by_cases hv : V.contains u
    · rw [List.foldl_cons]
      simp only [if_pos hv]
      rw [mapSet_append (hdis u (List.mem_cons_self _ _))]
      have hdis2 : ∀ w ∈ us, ∀ p ∈ m₀ ++ [(u, subjectLabel n₀)], p.1 ≠ w := by
        intro w hw p hp
        rcases List.mem_append.mp hp with hp | hp
        · exact hdis w (List.mem_cons_of_mem _ hw) p hp
        · rcases List.mem_singleton.mp hp with rfl
          intro hc
          have hc2 : u = w := hc
          exact hu_not (hc2.symm ▸ hw)
      rw [ih V (m₀ ++ [(u, subjectLabel n₀)]) (subs₀ ++ [u]) (n₀ + 1) hndus hdis2]
      rw [List.filter_cons_of_pos (by simpa using hv)]
      refine congrArg₂ _ ?_ (congrArg₂ _ ?_ ?_)
      · rw [labelList, List.append_assoc]
        rfl
      · rw [List.append_assoc]
        rfl
      · simp only [List.length_cons]
        omega
    · rw [List.foldl_cons]
      simp only [if_neg hv]
      rw [ih V m₀ subs₀ n₀ hndus (fun w hw => hdis w (List.mem_cons_of_mem _ hw))]
      rw [List.filter_cons_of_neg (by simpa using hv)]

theorem rowFold_eq :
    ∀ (rows : List (List Char × List Char))
      (m₀ : List (List Char × List Char)) (subs₀ : List (List Char)) (n₀ : Nat),
      (rows.map Prod.fst).Nodup → (∀ q ∈ rows, ∀ p ∈ m₀, p.1 ≠ q.1) →
      rows.foldl
        (fun acc row =>
          (mapSet acc.1 row.1 (subjectLabel acc.2.2), acc.2.1 ++ [row.2], acc.2.2 + 1))
        (m₀, subs₀, n₀) =
        (m₀ ++ labelList (rows.map Prod.fst) n₀, subs₀ ++ rows.map Prod.snd,
         n₀ + rows.length) := by
  intro rows
  induction rows with
  | nil => intro m₀ subs₀ n₀ _ _; simp [labelList]
  | cons q qs ih =>
    intro m₀ subs₀ n₀ hnd hdis
    simp only [List.map_cons, List.nodup_cons] at hnd
    obtain ⟨hq_not, hndqs⟩ := hnd
    rw [List.foldl_cons]
    rw [mapSet_append (hdis q (List.mem_cons_self _ _))]
    have hdis2 : ∀ w ∈ qs, ∀ p ∈ m₀ ++ [(q.1, subjectLabel n₀)], p.1 ≠ w.1 := by
      intro w hw p hp
      rcases List.mem_append.mp hp with hp | hp
      · exact hdis w (List.mem_cons_of_mem _ hw) p hp
      · rcases List.mem_singleton.mp hp with rfl
        intro hc
        exact hq_not (by
          simp only at hc
          rw [hc]
          exact List.mem_map_of_mem Prod.fst hw)
    rw [ih (m₀ ++ [(q.1, subjectLabel n₀)]) (subs₀ ++ [q.2]) (n₀ + 1) hndqs hdis2]
    refine congrArg₂ _ ?_ (congrArg₂ _ ?_ ?_)
    · rw [List.map_cons, labelList, List.append_assoc]
      rfl
    · rw [List.map_cons, List.append_assoc]
      rfl
    · simp only [List.length_cons]
      omega


/-- Claim C3 (counterexample): plain-resolved aliases follow the order of the
username-lookup result, not first-seen order in the text.  For
`"@alice and @bob"` — alice mentioned first — a storage collaborator that
returns the matching rows as `[bob, alice]` makes the controller label bob
`SUBJECT_1` and alice `SUBJECT_2`. -/
theorem claim_C3_counterexample :
    (extractMentions "@alice and @bob".toList).usernames =
      ["alice".toList, "bob".toList] ∧
    resolvePhase
        { identityByHash := fun _ => .fault
        , directoryVerify := fun _ => .ok []
        , usersByUsername := fun _ =>
            .ok [("bob".toList, "U2".toList), ("alice".toList, "U1".toList)]
        , insertReport := fun _ => .fault }
        (extractMentions "@alice and @bob".toList) =
      .ok ([("bob".toList, "SUBJECT_1".toList), ("alice".toList, "SUBJECT_2".toList)],
        ["U2".toList, "U1".toList]) := by
  constructor
  · decide
  · decide

/-- Claim C3 (amended): the alias assignment labels the verified structured
candidates first, in first-seen mention order, then the plain candidates in
the order of the username-lookup result (which equals first-seen text order
only when the store returns rows in that order); labels are `SUBJECT_1`,
`SUBJECT_2`, ... assigned densely by one shared counter, and — provided the
returned usernames are pairwise distinct and disjoint from the verified
structured keys — the mapping is injective. -/
theorem claim_C3_amended (store : Store) (mentions : MentionResult)
    (V : List (List Char)) (rows : List (List Char × List Char))
    (h1 : mentions.uins.Nodup)
    (h2 : 0 < mentions.uins.length → store.directoryVerify mentions.uins = .ok V)
    (h3 : 0 < mentions.usernames.length →
      store.usersByUsername mentions.usernames = .ok rows)
    (h4 : mentions.usernames = [] → rows = [])
    (h5 : (rows.map Prod.fst).Nodup)
    (h6 : ∀ q ∈ rows, q.1 ∉ mentions.uins.filter (fun u => V.contains u)) :
    resolvePhase store mentions =
      .ok (labelList
            (mentions.uins.filter (fun u => V.contains u) ++ rows.map Prod.fst) 1,
          mentions.uins.filter (fun u => V.contains u) ++ rows.map Prod.snd) ∧
    (labelList (mentions.uins.filter (fun u => V.contains u) ++ rows.map Prod.fst) 1).map
        Prod.snd =
      (List.range
          (mentions.uins.filter (fun u => V.contains u) ++ rows.map Prod.fst).length).map
        (fun i => subjectLabel (1 + i)) ∧
    (∀ k k' a,
      (k, a) ∈ labelList
        (mentions.uins.filter (fun u => V.contains u) ++ rows.map Prod.fst) 1 →
      (k', a) ∈ labelList
        (mentions.uins.filter (fun u => V.contains u) ++ rows.map Prod.fst) 1 →
      k = k') := by
  refine ⟨?_, labelList_map_snd _ 1, ?_⟩
  · have hstep1 : resolveStep1 store mentions =
        .ok (labelList (mentions.uins.filter (fun u => V.contains u)) 1,
          mentions.uins.filter (fun u => V.contains u),
          1 + (mentions.uins.filter (fun u => V.contains u)).length) := by
      unfold resolveStep1
      by_cases hu : 0 < mentions.uins.length
      · rw [if_pos hu, h2 hu]
        show LookupRes.ok (mentions.uins.foldl
          (fun acc uin =>
            if V.contains uin then
              (mapSet acc.1 uin (subjectLabel acc.2.2), acc.2.1 ++ [uin], acc.2.2 + 1)
            else acc) ([], [], 1)) = _
        rw [uinFold_eq mentions.uins V [] [] 1 h1 (by intro u hu p hp; simp at hp)]
        simp
      · rw [if_neg hu]
        have hnil : mentions.uins = [] := by
          cases hm : mentions.uins with
          | nil => rfl
          | cons a as => rw [hm] at hu; simp at hu
        rw [hnil]
        simp [labelList]
    have hstep2 : resolveStep2 store mentions
        (labelList (mentions.uins.filter (fun u => V.contains u)) 1,
          mentions.uins.filter (fun u => V.contains u),
          1 + (mentions.uins.filter (fun u => V.contains u)).length) =
        (labelList (mentions.uins.filter (fun u => V.contains u)) 1 ++
            labelList (rows.map Prod.fst)
              (1 + (mentions.uins.filter (fun u => V.contains u)).length),
          mentions.uins.filter (fun u => V.contains u) ++ rows.map Prod.snd,
          1 + (mentions.uins.filter (fun u => V.contains u)).length + rows.length) := by
      have hdis : ∀ q ∈ rows, ∀ p ∈
          labelList (mentions.uins.filter (fun u => V.contains u)) 1, p.1 ≠ q.1 := by
        intro q hq p hp hc
        refine h6 q hq ?_
        rw [← labelList_keys (mentions.uins.filter (fun u => V.contains u)) 1, ← hc]
        exact List.mem_map_of_mem Prod.fst hp
      unfold resolveStep2
      by_cases hn : 0 < mentions.usernames.length
      · rw [if_pos hn, h3 hn]
        show (if 0 < rows.length then rows.foldl
            (fun acc row =>
              (mapSet acc.1 row.1 (subjectLabel acc.2.2), acc.2.1 ++ [row.2], acc.2.2 + 1))
            (labelList (mentions.uins.filter (fun u => V.contains u)) 1,
              mentions.uins.filter (fun u => V.contains u),
              1 + (mentions.uins.filter (fun u => V.contains u)).length)
          else (labelList (mentions.uins.filter (fun u => V.contains u)) 1,
              mentions.uins.filter (fun u => V.contains u),
              1 + (mentions.uins.filter (fun u => V.contains u)).length)) = _
        by_cases hr : 0 < rows.length
        · rw [if_pos hr, rowFold_eq rows _ _ _ h5 hdis]
        · rw [if_neg hr]
          have hrnil : rows = [] := by
            cases hm : rows with
            | nil => rfl
            | cons a as => rw [hm] at hr; simp at hr
          rw [hrnil]
          simp [labelList]
      · rw [if_neg hn]
        rw [h4 (by
          cases hm : mentions.usernames with
          | nil => rfl
          | cons a as => rw [hm] at hn; simp at hn)]
        simp [labelList]
    unfold resolvePhase
    rw [hstep1]
    show LookupRes.ok ((resolveStep2 store mentions _).1, (resolveStep2 store mentions _).2.1) = _
    rw [hstep2, labelList_append]
  · intro k k' a hk hk'
    obtain ⟨i, hi, hki, hai⟩ := mem_labelList hk
    obtain ⟨j, hj, hkj, haj⟩ := mem_labelList hk'
    have hij : i = j := by
      have := subjectLabel_inj (hai.symm.trans haj)
      omega
    subst hij
    rw [← hki, ← hkj]

/-- Witness for the amended C3: structured candidate `7` precedes plain
candidate `jane`, labels are dense from `SUBJECT_1` and the map is as the
amended claim computes it. -/
theorem claim_C3_witness :
    resolvePhase
        { identityByHash := fun _ => .fault
        , directoryVerify := fun _ => .ok ["7".toList]
        , usersByUsername := fun _ => .ok [("jane".toList, "9".toList)]
        , insertReport := fun _ => .fault }
        (extractMentions "@jane harassed me and @[John](7) watched.".toList) =
      .ok (labelList
            (((extractMentions "@jane harassed me and @[John](7) watched.".toList).uins.filter
                (fun u => ["7".toList].contains u)) ++
              [("jane".toList, "9".toList)].map Prod.fst) 1,
          ((extractMentions "@jane harassed me and @[John](7) watched.".toList).uins.filter
              (fun u => ["7".toList].contains u)) ++
            [("jane".toList, "9".toList)].map Prod.snd) :=
  (claim_C3_amended _ _ ["7".toList] [("jane".toList, "9".toList)]
    (by decide) (fun _ => rfl) (fun _ => rfl) (by decide) (by decide) (by decide)).1

end SafeHarbour








